import Mathlib

/-!
# Verification of the monochromator spectral-response pipeline

Shallow embedding of the core algorithm of
`calibration/spectral_response_monochromator.py`: grid alignment
(`np.unique` / `np.searchsorted` scatter), calibration, the pairwise
overlap matrix, the baseline/ordering logic (`np.argsort`-based), the
per-spectrum polynomial renormalisation loop, and the NaN-aware
SNR-weighted combination done with `numpy.ma` masked arrays.

Modelling conventions:
* Float values are modelled as `Option ℚ`; `none` stands for a
  non-finite float (the NaN sentinel used by the code for missing data).
  Arithmetic with a `none` operand yields `none`, and division by zero
  yields `none` (numpy produces a non-finite `inf`/NaN there; every
  theorem below that touches a division hypothesises a non-zero
  divisor, so the conflation of NaN and inf is never exercised).
* A masked-array element is a pair of a data value and a mask bit, as in
  `numpy.ma`; reductions fill masked slots with 0 and a fully masked
  reduction is itself masked.
* The channel dimension (fixed to 4 = R,G,B,G2 in the code) is kept as a
  list dimension of unconstrained width; the algorithm never depends on
  the width.
* `np.polyfit(x, y, 2)` is modelled by the degree-2 normal equations,
  which agree with numpy's least squares whenever the normal matrix is
  invertible (at least 3 distinct x).  numpy raises on an empty input,
  modelled as `none`; for a singular system numpy falls back to a
  minimum-norm SVD solution, which is not rationally representable and
  is modelled as `none` as well (the spec's `DegenerateFit` contract);
  no claim below exercises that branch.
-/

/-- A float cell: `some q` is a finite value, `none` is NaN (missing). -/
abbrev Cell := Option ℚ

/-- A spectrum on the aligned grid: one row per wavelength, one entry
per colour channel (`all_means[i]` / `all_stds[i]` in the code). -/
abbrev Spec2D := List (List Cell)

/-- NaN-propagating float addition. -/
def dadd : Cell → Cell → Cell
  | some a, some b => some (a + b)
  | _, _ => none

/-- NaN-propagating float multiplication. -/
def dmul : Cell → Cell → Cell
  | some a, some b => some (a * b)
  | _, _ => none

/-- Float division.  NaN operands propagate; a zero divisor produces a
non-finite result, modelled as `none`. -/
def ddiv : Cell → Cell → Cell
  | some a, some b => if b = 0 then none else some (a / b)
  | _, _ => none

/-- The (wavelength `w`, channel `c`) cell of a spectrum. -/
def cellOf (sp : Spec2D) (w c : ℕ) : Cell := (sp.getD w []).getD c none

/-- `overlap(spectrum_a, spectrum_b)` from the code: the number of
non-NaN cells of `spectrum_a + spectrum_b`. -/
def overlap2 (a b : Spec2D) : ℕ :=
  ((a.zip b).map
    (fun rc => ((rc.1.zip rc.2).map (fun p => dadd p.1 p.2)).countP Option.isSome)).sum

/-- `all_overlaps` from the code: row `i`, column `j` holds
`overlap(means[j], means[i])`. -/
def overlapsMatrix (specs : List Spec2D) : List (List ℕ) :=
  specs.map (fun m2 => specs.map (fun m1 => overlap2 m1 m2))

/-- `np.argmax` on a list of naturals: index of the first maximum. -/
def argmaxN (l : List ℕ) : ℕ := l.indexOf (l.foldr max 0)

/-- The order `np.argsort` sorts (index, value) pairs in: ascending by
value, ties broken by original index (numpy's behaviour on the inputs
arising here, where ties are between at most two equal counts). -/
def idxLE (a b : ℕ × ℕ) : Prop := a.2 < b.2 ∨ (a.2 = b.2 ∧ a.1 ≤ b.1)

instance : DecidableRel idxLE := fun a b => by unfold idxLE; infer_instance

instance : IsTotal (ℕ × ℕ) idxLE := ⟨by intro a b; unfold idxLE; omega⟩

instance : IsTrans (ℕ × ℕ) idxLE := ⟨by intro a b c; unfold idxLE; omega⟩

/-- The diagonal of a square matrix of naturals. -/
def diagOf (M : List (List ℕ)) : List ℕ :=
  (List.range M.length).map (fun k => (M.getD k []).getD k 0)

/-- `baseline = np.diag(all_overlaps).argmax()`. -/
def baselineIdx (M : List (List ℕ)) : ℕ := argmaxN (diagOf M)

/-- `np.argsort` on a list of naturals: the indices that sort the list
ascending. -/
def argsortN (l : List ℕ) : List ℕ := (l.enum.insertionSort idxLE).map Prod.fst

/-- `normalise_order = np.argsort(all_overlaps[baseline])[-2::-1]`: drop
the last element of the ascending argsort and reverse the rest. -/
def normaliseOrderOf (M : List (List ℕ)) : List ℕ :=
  ((argsortN (M.getD (baselineIdx M) [])).dropLast).reverse

/-- The comparison spectrum for step `i` of the loop: the baseline when
`all_overlaps[i, baseline]` is non-zero, otherwise
`np.argsort(all_overlaps[i])[-2]`. -/
def comparisonIdx (M : List (List ℕ)) (bl i : ℕ) : ℕ :=
  if (M.getD i []).getD bl 0 ≠ 0 then bl
  else (argsortN (M.getD i [])).getD ((M.getD i []).length - 2) 0

/-- `np.polyval` for a degree-2 coefficient triple `(c2, c1, c0)`. -/
def polyval (c : ℚ × ℚ × ℚ) (x : ℚ) : ℚ := c.1 * x ^ 2 + c.2.1 * x + c.2.2

/-- `np.polyfit(x, y, 2)` via the normal equations (Cramer).  `none` on
an empty point list (numpy raises) and on a singular normal matrix (see
the module docstring). -/
def polyfit2 (pts : List (ℚ × ℚ)) : Option (ℚ × ℚ × ℚ) :=
  if pts = [] then none else
  let n : ℚ := pts.length
  let sx := (pts.map (fun p => p.1)).sum
  let sx2 := (pts.map (fun p => p.1 ^ 2)).sum
  let sx3 := (pts.map (fun p => p.1 ^ 3)).sum
  let sx4 := (pts.map (fun p => p.1 ^ 4)).sum
  let sy := (pts.map (fun p => p.2)).sum
  let sxy := (pts.map (fun p => p.1 * p.2)).sum
  let sx2y := (pts.map (fun p => p.1 ^ 2 * p.2)).sum
  let det := sx4 * (sx2 * n - sx * sx) - sx3 * (sx3 * n - sx * sx2)
    + sx2 * (sx3 * sx - sx2 * sx2)
  if det = 0 then none else
  let d2 := sx2y * (sx2 * n - sx * sx) - sx3 * (sxy * n - sx * sy)
    + sx2 * (sxy * sx - sx2 * sy)
  let d1 := sx4 * (sxy * n - sx * sy) - sx2y * (sx3 * n - sx * sx2)
    + sx2 * (sx3 * sy - sx2 * sxy)
  let d0 := sx4 * (sx2 * sy - sx * sxy) - sx3 * (sx3 * sy - sx2 * sxy)
    + sx2y * (sx3 * sx - sx2 * sx2)
  some (d2 / det, d1 / det, d0 / det)

/-- The per-cell division applied by the normalisation loop
(`all_means_calibrated[i] / fit_norms`, and the same for the stds). -/
def normCell (v : Cell) (f : ℚ) : Cell := ddiv v (some f)

/-- `cal_factor` lookup: the calibration factor at wavelength `w`, when
`w` occurs in the calibration curve (`np.intersect1d` in the code). -/
def calFactor (cal : List (ℚ × ℚ)) (w : ℚ) : Option ℚ :=
  (cal.find? (fun p => p.1 == w)).map (fun p => p.2)

/-- The Calibrator: rows whose wavelength occurs in the calibration
curve are divided (mean and std alike) by the factor; rows absent from
the curve stay NaN. -/
def calibrateSpec (grid : List ℚ) (cal : List (ℚ × ℚ)) (a : Spec2D) : Spec2D :=
  (List.range grid.length).map (fun wi =>
    match calFactor cal (grid.getD wi 0) with
    | some f => (a.getD wi []).map (fun v => ddiv v (some f))
    | none => (a.getD wi []).map (fun _ => none))

/-- One iteration of the normalisation loop for spectrum `i`: compute
the ratio against the (current, possibly already normalised) comparison
spectrum, select the rows whose channel-0 ratio is non-NaN, fit one
degree-2 polynomial per channel, and divide spectrum `i`'s calibrated
mean and std by the fitted curve.  Fails (`none`) when a fit gets an
empty or NaN-polluted point set (numpy raises there). -/
def normaliseStep (grid : List ℚ) (calMeans calStds : List Spec2D)
    (M : List (List ℕ)) (bl : ℕ) (st : List Spec2D × List Spec2D) (i : ℕ) :
    Option (List Spec2D × List Spec2D) :=
  let comparison := comparisonIdx M bl i
  let ci := calMeans.getD i []
  let si := calStds.getD i []
  let cm := st.1.getD comparison []
  let ratios := ci.zipWith (fun ra rb => ra.zipWith ddiv rb) cm
  let ind := (List.range ratios.length).filter
    (fun w => ((ratios.getD w []).getD 0 none).isSome)
  let xs := ind.map (fun w => grid.getD w 0)
  let nC := (ci.getD 0 []).length
  ((List.range nC).mapM (fun c =>
      (ind.mapM (fun w => (ratios.getD w []).getD c none)).bind (fun ys =>
        polyfit2 (xs.zip ys)))).map (fun fits =>
    let newMean := (List.range ci.length).map (fun w =>
      (List.range nC).map (fun c =>
        normCell ((ci.getD w []).getD c none)
          (polyval (fits.getD c (0, 0, 0)) (grid.getD w 0))))
    let newStd := (List.range si.length).map (fun w =>
      (List.range nC).map (fun c =>
        normCell ((si.getD w []).getD c none)
          (polyval (fits.getD c (0, 0, 0)) (grid.getD w 0))))
    (st.1.set i newMean, st.2.set i newStd))

/-- The whole normalisation loop: fold `normaliseStep` over
`normalise_order`, starting from the calibrated spectra. -/
def normaliseRun (grid : List ℚ) (calMeans calStds : List Spec2D) :
    Option (List Spec2D × List Spec2D) :=
  let M := overlapsMatrix calMeans
  (normaliseOrderOf M).foldlM
    (normaliseStep grid calMeans calStds M (baselineIdx M)) (calMeans, calStds)

/-- A `numpy.ma` masked-array element: a data value and a mask bit. -/
structure MV where
  data : Cell
  mask : Bool
deriving DecidableEq

/-- `np.ma.array(x, mask=np.isnan(x))`: mask exactly the NaN entries. -/
def mkMV (v : Cell) : MV := ⟨v, v.isNone⟩

/-- Masked multiplication: data multiply, masks union. -/
def mmul (a b : MV) : MV := ⟨dmul a.data b.data, a.mask || b.mask⟩

/-- Masked (domained) division: the mask also covers slots where the
data division is non-finite. -/
def mdivD (a b : MV) : MV :=
  ⟨ddiv a.data b.data, a.mask || b.mask || (ddiv a.data b.data).isNone⟩

/-- Masked squaring (`** 2`). -/
def mpow2 (a : MV) : MV := mmul a a

/-- Masked sum reduction: masked slots are filled with 0; the result is
masked iff every slot is masked (`np.ma.sum` along an axis). -/
def msum (l : List MV) : MV :=
  ⟨l.foldl (fun acc v => dadd acc (if v.mask then some 0 else v.data)) (some 0),
   l.all (fun v => v.mask)⟩

/-- `SNR = all_means_normalised / all_stds_normalised` followed by
`np.ma.array(SNR, mask=np.isnan(SNR))`, at one cell of one spectrum. -/
def snrMV (p : Cell × Cell) : MV := mkMV (ddiv p.1 p.2)

/-- `weights = SNR_mask ** 2` at one cell of one spectrum. -/
def weightMV (p : Cell × Cell) : MV := mpow2 (snrMV p)

/-- The effective weight used by `np.ma.average(mean_mask, weights=weights)`:
numpy multiplies the weights by `~a.mask` and then unions in `a.mask`. -/
def avgWeight (p : Cell × Cell) : MV :=
  ⟨dmul (weightMV p).data (some (if p.1.isNone then 0 else 1)),
   (weightMV p).mask || p.1.isNone⟩

/-- `flat_means_mask` at one (wavelength, channel) cell:
`np.ma.average(mean_mask, axis=0, weights=weights)`, i.e.
`sum(mean * wgt) / sum(wgt)` over the spectra, as masked sums and a
domained division.  `entries` lists each spectrum's (mean, std) at the
cell. -/
def combineMeanCell (entries : List (Cell × Cell)) : MV :=
  let num := msum (entries.map (fun p => mmul (mkMV p.1) (avgWeight p)))
  let scl := msum (entries.map avgWeight)
  mdivD num scl

/-- The square of `flat_errs_mask` at one cell:
`np.ma.sum((weights / weights.sum(axis=0) * stds_mask) ** 2, axis=0)`
(the code takes the square root of this masked sum; the square root is
applied at the statement level, keeping the embedding rational). -/
def flatErrsSqCell (entries : List (Cell × Cell)) : MV :=
  let wsum := msum (entries.map weightMV)
  msum (entries.map (fun p => mpow2 (mmul (mdivD (weightMV p) wsum) (mkMV p.2))))

/-- The per-spectrum (mean, std) pairs at one (wavelength, channel)
cell, across a list of spectra. -/
def entriesAt (means stds : List Spec2D) (w c : ℕ) : List (Cell × Cell) :=
  (means.zip stds).map (fun p => (cellOf p.1 w c, cellOf p.2 w c))

/-- `flat_means_mask` over the whole `nW × nC` grid. -/
def combinedMeanGrid (means stds : List Spec2D) (nW nC : ℕ) : List (List MV) :=
  (List.range nW).map (fun w =>
    (List.range nC).map (fun c => combineMeanCell (entriesAt means stds w c)))

/-- `flat_means_mask.max()`: the maximum over the unmasked combined
means (masked slots are ignored; `none` when everything is masked). -/
def combinedMax (means stds : List Spec2D) (nW nC : ℕ) : Option ℚ :=
  (((combinedMeanGrid means stds nW nC).flatten).filterMap
    (fun v => if v.mask then none else v.data)).max?

/-- One cell of `response_normalised = (flat_means_mask / flat_means_mask.max()).data`:
the masked division by the global maximum, followed by `.data`, which
keeps the underlying data and throws the mask away. -/
def rescaleMeanCell (v : MV) (M : Option ℚ) : Cell := (mdivD v ⟨M, M.isNone⟩).data

/-- One cell of the square of
`errors_normalised = (flat_errs_mask / flat_means_mask.max()).data`:
dividing `flat_errs² ` by `max²` and stripping the mask (squares are
used so the embedding stays rational; the actual errors are the square
roots of these cells). -/
def rescaleErrVarCell (v : MV) (M : Option ℚ) : Cell :=
  (mdivD v ⟨dmul M M, (dmul M M).isNone⟩).data

/-- `response_normalised` over the whole grid. -/
def finalResponse (means stds : List Spec2D) (nW nC : ℕ) : Spec2D :=
  let M := combinedMax means stds nW nC
  (combinedMeanGrid means stds nW nC).map (fun row => row.map (fun v => rescaleMeanCell v M))

/-- The square of `errors_normalised` over the whole grid. -/
def finalErrVar (means stds : List Spec2D) (nW nC : ℕ) : Spec2D :=
  let M := combinedMax means stds nW nC
  (List.range nW).map (fun w =>
    (List.range nC).map (fun c => rescaleErrVarCell (flatErrsSqCell (entriesAt means stds w c)) M))

/-- The post-calibration pipeline: the normalisation loop followed by
the combination and the unit-peak rescale.  `none` when the loop fails
(a polynomial fit receives no data). -/
def pipelineOut (grid : List ℚ) (calMeans calStds : List Spec2D) :
    Option (Spec2D × Spec2D) :=
  (normaliseRun grid calMeans calStds).map (fun st =>
    let nW := grid.length
    let nC := ((calMeans.getD 0 []).getD 0 []).length
    (finalResponse st.1 st.2 nW nC, finalErrVar st.1 st.2 nW nC))

/-- The Grid Aligner's global grid:
`all_wavelengths = np.unique(np.concatenate(wavelengths))` (sort, then
remove duplicates). -/
def globalGrid (wls : List (List ℚ)) : List ℚ :=
  ((wls.flatten).insertionSort (· ≤ ·)).dedup

/-- `np.searchsorted(grid, x)` (left side): the number of grid entries
strictly below `x`. -/
def searchsorted (grid : List ℚ) (x : ℚ) : ℕ := grid.countP (fun y => decide (y < x))

/-- The Grid Aligner's scatter, `all_means[i][indices] = mean`: start
from an all-missing row per grid wavelength and write each measured
value at the insertion index of its wavelength.  `α` is the payload of
one wavelength (the 4-channel row in the code). -/
def reproject {α : Type} (grid : List ℚ) (wvl : List ℚ) (vals : List α) :
    List (Option α) :=
  (wvl.zip vals).foldl (fun acc p => acc.set (searchsorted grid p.1) (some p.2))
    (List.replicate grid.length none)

/-- The valid (both mean and std present) entries at a cell, with their
values: the set the spec's combination formulas range over. -/
def validPairs (entries : List (Cell × Cell)) : List (ℚ × ℚ) :=
  entries.filterMap (fun p => p.1.bind (fun m => p.2.map (fun s => (m, s))))

/-- The spec-side weight sum `Σ weight` at a cell: the sum of
`(mean/std)²` over the valid entries. -/
def weightSum (entries : List (Cell × Cell)) : ℚ :=
  ((validPairs entries).map (fun q => (q.1 / q.2) ^ 2)).sum

/-- A single spectrum with one valid cell (row 0) and one fully missing
cell (row 1), one channel. -/
def egSpec8 : Spec2D := [[some 1], [none]]

/-- Two spectra with identical coverage: a tie between the baseline's
self-overlap and the other spectrum's overlap with the baseline. -/
def egPairC3 : List Spec2D := [[[some 1]], [[some 1]]]

/-- Two identically covered spectra (values 2): the loop writes the
baseline's slot. -/
def egPairC5 : List Spec2D := [[[some 2]], [[some 2]]]

/-- Spectrum A: three valid rows, then three missing rows. -/
def egA4 : Spec2D := [[some 1], [some 1], [some 1], [none], [none], [none]]

/-- Spectra B and C: the complementary three rows. -/
def egB4 : Spec2D := [[none], [none], [none], [some 1], [some 1], [some 1]]

/-- The maximum over the valid cells of a spectrum's mean array: the
"its own maximum mean value" the final curve is divided by. -/
def specMax (sp : Spec2D) : Option ℚ := ((sp.flatten).filterMap id).max?

/-! ## Basic facts about the cell arithmetic -/

theorem dadd_isSome (a b : Cell) : (dadd a b).isSome = (a.isSome && b.isSome) := by
  cases a <;> cases b <;> simp [dadd]

theorem dadd_comm (a b : Cell) : dadd a b = dadd b a := by
  cases a <;> cases b <;> simp [dadd, add_comm]

theorem mem_validPairs {entries : List (Cell × Cell)} {m s : ℚ}
    (hp : (some m, some s) ∈ entries) : (m, s) ∈ validPairs entries := by
  unfold validPairs
  exact List.mem_filterMap.mpr ⟨(some m, some s), hp, rfl⟩

/-! ## The masked sum over the spectra at one cell -/

theorem foldl_dadd_some (l : List MV) (a : ℚ)
    (h : ∀ v ∈ l, v.mask = false → v.data.isSome) :
    l.foldl (fun acc v => dadd acc (if v.mask then some 0 else v.data)) (some a) =
      some (a + (l.map (fun v => if v.mask then 0 else v.data.getD 0)).sum) := by
  induction l generalizing a with
  | nil => simp
  | cons x xs ih =>
    have hxs : ∀ v ∈ xs, v.mask = false → v.data.isSome :=
      fun v hv => h v (List.mem_cons_of_mem _ hv)
    rw [List.foldl_cons, List.map_cons, List.sum_cons]
    by_cases hm : x.mask
    · simp only [if_pos hm]
      have hstep : dadd (some a) (some 0) = some (a + 0) := rfl
      rw [hstep, ih (a + 0) hxs, add_zero, zero_add]
    · obtain ⟨q, hq⟩ := Option.isSome_iff_exists.mp
        (h x (List.mem_cons_self _ _) (by simpa using hm))
      simp only [if_neg hm, hq]
      have hstep : dadd (some a) (some q) = some (a + q) := rfl
      rw [hstep, ih (a + q) hxs, Option.getD_some, add_assoc]

theorem msum_spec (l : List MV) (h : ∀ v ∈ l, v.mask = false → v.data.isSome) :
    msum l = ⟨some ((l.map (fun v => if v.mask then 0 else v.data.getD 0)).sum),
              l.all (fun v => v.mask)⟩ := by
  unfold msum
  rw [foldl_dadd_some l 0 h, zero_add]

theorem entries_unmasked_some (entries : List (Cell × Cell)) (g : Cell × Cell → MV)
    (f : ℚ → ℚ → ℚ)
    (h : ∀ p ∈ entries, (∀ m s, p = (some m, some s) → g p = ⟨some (f m s), false⟩) ∧
      (p.1.isNone ∨ p.2.isNone → (g p).mask = true)) :
    ∀ v ∈ entries.map g, v.mask = false → v.data.isSome := by
  intro v hv hmask
  obtain ⟨p, hp, rfl⟩ := List.mem_map.mp hv
  obtain ⟨pm, ps⟩ := p
  cases pm with
  | none => exact absurd ((h _ hp).2 (Or.inl rfl)) (by simp [hmask])
  | some m =>
    cases ps with
    | none => exact absurd ((h _ hp).2 (Or.inr rfl)) (by simp [hmask])
    | some s => rw [(h _ hp).1 m s rfl]; rfl

theorem entries_sum_valid (entries : List (Cell × Cell)) (g : Cell × Cell → MV)
    (f : ℚ → ℚ → ℚ)
    (h : ∀ p ∈ entries, (∀ m s, p = (some m, some s) → g p = ⟨some (f m s), false⟩) ∧
      (p.1.isNone ∨ p.2.isNone → (g p).mask = true)) :
    ((entries.map g).map (fun v => if v.mask then 0 else v.data.getD 0)).sum =
      ((validPairs entries).map (fun q => f q.1 q.2)).sum := by
  induction entries with
  | nil => rfl
  | cons p rest ih =>
    have hp := h p (List.mem_cons_self _ _)
    have hrest := fun q hq => h q (List.mem_cons_of_mem p hq)
    obtain ⟨pm, ps⟩ := p
    cases pm with
    | none =>
      have hmask := hp.2 (Or.inl rfl)
      simp only [List.map_cons, List.sum_cons, hmask, if_pos, validPairs, List.filterMap_cons]
      simpa [validPairs] using ih hrest
    | some m =>
      cases ps with
      | none =>
        have hmask := hp.2 (Or.inr rfl)
        simp only [List.map_cons, List.sum_cons, hmask, if_pos, validPairs, List.filterMap_cons]
        simpa [validPairs] using ih hrest
      | some s =>
        have hval := hp.1 m s rfl
        simp only [List.map_cons, List.sum_cons, hval, validPairs, List.filterMap_cons]
        simpa [validPairs] using congrArg (fun t => f m s + t) (ih hrest)

theorem entries_all_mask (entries : List (Cell × Cell)) (g : Cell × Cell → MV)
    (f : ℚ → ℚ → ℚ)
    (h : ∀ p ∈ entries, (∀ m s, p = (some m, some s) → g p = ⟨some (f m s), false⟩) ∧
      (p.1.isNone ∨ p.2.isNone → (g p).mask = true)) :
    ((entries.map g).all (fun v => v.mask)) = decide (validPairs entries = []) := by
  induction entries with
  | nil => rfl
  | cons p rest ih =>
    have hp := h p (List.mem_cons_self _ _)
    have hrest := fun q hq => h q (List.mem_cons_of_mem p hq)
    obtain ⟨pm, ps⟩ := p
    cases pm with
    | none =>
      have hmask := hp.2 (Or.inl rfl)
      simp only [List.map_cons, List.all_cons, hmask, Bool.true_and, validPairs,
        List.filterMap_cons]
      simpa [validPairs] using ih hrest
    | some m =>
      cases ps with
      | none =>
        have hmask := hp.2 (Or.inr rfl)
        simp only [List.map_cons, List.all_cons, hmask, Bool.true_and, validPairs,
          List.filterMap_cons]
        simpa [validPairs] using ih hrest
      | some s =>
        have hval := hp.1 m s rfl
        simp [hval, validPairs, List.filterMap_cons]

theorem msum_map_entries (entries : List (Cell × Cell)) (g : Cell × Cell → MV)
    (f : ℚ → ℚ → ℚ)
    (h : ∀ p ∈ entries, (∀ m s, p = (some m, some s) → g p = ⟨some (f m s), false⟩) ∧
      (p.1.isNone ∨ p.2.isNone → (g p).mask = true)) :
    msum (entries.map g) =
      ⟨some (((validPairs entries).map (fun q => f q.1 q.2)).sum),
       decide (validPairs entries = [])⟩ := by
  rw [msum_spec _ (entries_unmasked_some entries g f h),
    entries_sum_valid entries g f h, entries_all_mask entries g f h]

/-! ## The combiner at one cell -/

theorem weightMV_valid (m s : ℚ) (hs : s ≠ 0) :
    weightMV (some m, some s) = ⟨some ((m / s) ^ 2), false⟩ := by
  simp [weightMV, snrMV, mkMV, mpow2, mmul, ddiv, dmul, hs, pow_two]

theorem weightMV_mask_invalid (p : Cell × Cell) (h : p.1.isNone ∨ p.2.isNone) :
    (weightMV p).mask = true := by
  obtain ⟨pm, ps⟩ := p
  cases pm <;> cases ps <;> simp_all [weightMV, snrMV, mkMV, mpow2, mmul, ddiv]

theorem avgWeight_valid (m s : ℚ) (hs : s ≠ 0) :
    avgWeight (some m, some s) = ⟨some ((m / s) ^ 2), false⟩ := by
  simp [avgWeight, weightMV_valid m s hs, dmul]

theorem avgWeight_mask_invalid (p : Cell × Cell) (h : p.1.isNone ∨ p.2.isNone) :
    (avgWeight p).mask = true := by
  rw [avgWeight]
  simp [weightMV_mask_invalid p h]

theorem numTerm_valid (m s : ℚ) (hs : s ≠ 0) :
    mmul (mkMV (some m)) (avgWeight (some m, some s)) =
      ⟨some ((m / s) ^ 2 * m), false⟩ := by
  rw [avgWeight_valid m s hs]
  simp [mmul, mkMV, dmul, mul_comm]

theorem numTerm_mask_invalid (p : Cell × Cell) (h : p.1.isNone ∨ p.2.isNone) :
    (mmul (mkMV p.1) (avgWeight p)).mask = true := by
  simp [mmul, avgWeight_mask_invalid p h]

theorem combineMeanCell_eq (entries : List (Cell × Cell))
    (hvp : validPairs entries ≠ [])
    (hs : ∀ q ∈ validPairs entries, q.2 ≠ 0)
    (hW : weightSum entries ≠ 0) :
    combineMeanCell entries =
      ⟨some ((((validPairs entries).map (fun q => (q.1 / q.2) ^ 2 * q.1)).sum) /
        weightSum entries), false⟩ := by
  have hnum : ∀ p ∈ entries,
      (∀ m s, p = (some m, some s) →
        mmul (mkMV p.1) (avgWeight p) = ⟨some ((m / s) ^ 2 * m), false⟩) ∧
      (p.1.isNone ∨ p.2.isNone → (mmul (mkMV p.1) (avgWeight p)).mask = true) := by
    intro p hp
    refine ⟨?_, numTerm_mask_invalid p⟩
    rintro m s rfl
    exact numTerm_valid m s (hs _ (mem_validPairs hp))
  have hden : ∀ p ∈ entries,
      (∀ m s, p = (some m, some s) → avgWeight p = ⟨some ((m / s) ^ 2), false⟩) ∧
      (p.1.isNone ∨ p.2.isNone → (avgWeight p).mask = true) := by
    intro p hp
    refine ⟨?_, avgWeight_mask_invalid p⟩
    rintro m s rfl
    exact avgWeight_valid m s (hs _ (mem_validPairs hp))
  unfold combineMeanCell
  rw [msum_map_entries entries _ (fun m s => (m / s) ^ 2 * m) hnum,
    msum_map_entries entries avgWeight (fun m s => (m / s) ^ 2) hden]
  simp only [decide_eq_false hvp]
  have hW' : (List.map (fun q => (q.1 / q.2) ^ 2) (validPairs entries)).sum ≠ 0 := hW
  simp [mdivD, ddiv, weightSum, hW']

theorem combineMeanCell_allMissing (entries : List (Cell × Cell))
    (hall : ∀ p ∈ entries, p.1 = none ∧ p.2 = none) :
    combineMeanCell entries = ⟨none, true⟩ := by
  have hvp : validPairs entries = [] := by
    unfold validPairs
    rw [List.filterMap_eq_nil_iff]
    intro p hp
    rw [(hall p hp).1]
    rfl
  have hnum : ∀ p ∈ entries,
      (∀ m s, p = (some m, some s) →
        mmul (mkMV p.1) (avgWeight p) = ⟨some ((m / s) ^ 2 * m), false⟩) ∧
      (p.1.isNone ∨ p.2.isNone → (mmul (mkMV p.1) (avgWeight p)).mask = true) := by
    intro p hp
    refine ⟨?_, numTerm_mask_invalid p⟩
    rintro m s rfl
    exact absurd (hall _ hp).1 (by simp)
  have hden : ∀ p ∈ entries,
      (∀ m s, p = (some m, some s) → avgWeight p = ⟨some ((m / s) ^ 2), false⟩) ∧
      (p.1.isNone ∨ p.2.isNone → (avgWeight p).mask = true) := by
    intro p hp
    refine ⟨?_, avgWeight_mask_invalid p⟩
    rintro m s rfl
    exact absurd (hall _ hp).1 (by simp)
  unfold combineMeanCell
  rw [msum_map_entries entries _ (fun m s => (m / s) ^ 2 * m) hnum,
    msum_map_entries entries avgWeight (fun m s => (m / s) ^ 2) hden]
  simp [hvp, mdivD, ddiv]

theorem errTerm_valid (m s W : ℚ) (hs : s ≠ 0) (hW : W ≠ 0) :
    mpow2 (mmul (mdivD (weightMV (some m, some s)) ⟨some W, false⟩) (mkMV (some s))) =
      ⟨some (((m / s) ^ 2 / W * s) ^ 2), false⟩ := by
  rw [weightMV_valid m s hs]
  simp [mdivD, ddiv, mmul, mpow2, mkMV, dmul, hW, pow_two]

theorem errTerm_mask_invalid (p : Cell × Cell) (wsum : MV) (h : p.1.isNone ∨ p.2.isNone) :
    (mpow2 (mmul (mdivD (weightMV p) wsum) (mkMV p.2))).mask = true := by
  rcases h with h | h
  · simp [mpow2, mmul, mdivD, weightMV_mask_invalid p (Or.inl h)]
  · obtain ⟨pm, ps⟩ := p
    cases ps with
    | none => simp [mpow2, mmul, mkMV]
    | some s => simp at h

theorem flatErrsSqCell_eq (entries : List (Cell × Cell))
    (hvp : validPairs entries ≠ [])
    (hs : ∀ q ∈ validPairs entries, q.2 ≠ 0)
    (hW : weightSum entries ≠ 0) :
    flatErrsSqCell entries =
      ⟨some (((validPairs entries).map
        (fun q => ((q.1 / q.2) ^ 2 / weightSum entries * q.2) ^ 2)).sum), false⟩ := by
  have hwt : ∀ p ∈ entries,
      (∀ m s, p = (some m, some s) → weightMV p = ⟨some ((m / s) ^ 2), false⟩) ∧
      (p.1.isNone ∨ p.2.isNone → (weightMV p).mask = true) := by
    intro p hp
    refine ⟨?_, weightMV_mask_invalid p⟩
    rintro m s rfl
    exact weightMV_valid m s (hs _ (mem_validPairs hp))
  unfold flatErrsSqCell
  rw [msum_map_entries entries weightMV (fun m s => (m / s) ^ 2) hwt]
  simp only [decide_eq_false hvp]
  have hterm : ∀ p ∈ entries,
      (∀ m s, p = (some m, some s) →
        mpow2 (mmul (mdivD (weightMV p)
          ⟨some (((validPairs entries).map (fun q => (q.1 / q.2) ^ 2)).sum), false⟩)
          (mkMV p.2)) = ⟨some (((m / s) ^ 2 / weightSum entries * s) ^ 2), false⟩) ∧
      (p.1.isNone ∨ p.2.isNone →
        (mpow2 (mmul (mdivD (weightMV p)
          ⟨some (((validPairs entries).map (fun q => (q.1 / q.2) ^ 2)).sum), false⟩)
          (mkMV p.2))).mask = true) := by
    intro p hp
    refine ⟨?_, errTerm_mask_invalid p _⟩
    rintro m s rfl
    exact errTerm_valid m s _ (hs _ (mem_validPairs hp)) hW
  rw [msum_map_entries entries _
    (fun m s => ((m / s) ^ 2 / weightSum entries * s) ^ 2) hterm]
  simp [decide_eq_false hvp]

theorem flatErrsSqCell_allMissing (entries : List (Cell × Cell))
    (hall : ∀ p ∈ entries, p.1 = none ∧ p.2 = none) :
    flatErrsSqCell entries = ⟨some 0, true⟩ := by
  have hvp : validPairs entries = [] := by
    unfold validPairs
    rw [List.filterMap_eq_nil_iff]
    intro p hp
    rw [(hall p hp).1]
    rfl
  have hwt : ∀ p ∈ entries,
      (∀ m s, p = (some m, some s) → weightMV p = ⟨some ((m / s) ^ 2), false⟩) ∧
      (p.1.isNone ∨ p.2.isNone → (weightMV p).mask = true) := by
    intro p hp
    refine ⟨?_, weightMV_mask_invalid p⟩
    rintro m s rfl
    exact absurd (hall _ hp).1 (by simp)
  unfold flatErrsSqCell
  rw [msum_map_entries entries weightMV (fun m s => (m / s) ^ 2) hwt]
  have hterm : ∀ p ∈ entries,
      (∀ m s, p = (some m, some s) →
        mpow2 (mmul (mdivD (weightMV p)
          ⟨some (((validPairs entries).map (fun q => (q.1 / q.2) ^ 2)).sum),
            decide (validPairs entries = [])⟩)
          (mkMV p.2)) = ⟨some 0, false⟩) ∧
      (p.1.isNone ∨ p.2.isNone →
        (mpow2 (mmul (mdivD (weightMV p)
          ⟨some (((validPairs entries).map (fun q => (q.1 / q.2) ^ 2)).sum),
            decide (validPairs entries = [])⟩)
          (mkMV p.2))).mask = true) := by
    intro p hp
    refine ⟨?_, errTerm_mask_invalid p _⟩
    rintro m s rfl
    exact absurd (hall _ hp).1 (by simp)
  rw [msum_map_entries entries _ (fun _ _ => 0) hterm]
  simp [hvp]

/-! ## Indexing into the final rescaled grids -/

theorem getD_map_range {α : Type} (n i : ℕ) (f : ℕ → α) (d : α) (h : i < n) :
    ((List.range n).map f).getD i d = f i := by
  rw [List.getD_eq_getElem?_getD, List.getElem?_map]
  simp [List.getElem?_range, h]

theorem cellOf_finalResponse (means stds : List Spec2D) (nW nC w c : ℕ)
    (hw : w < nW) (hc : c < nC) :
    cellOf (finalResponse means stds nW nC) w c =
      rescaleMeanCell (combineMeanCell (entriesAt means stds w c))
        (combinedMax means stds nW nC) := by
  unfold finalResponse cellOf combinedMeanGrid
  rw [List.map_map, getD_map_range nW w _ [] hw]
  simp only [Function.comp, List.map_map]
  rw [getD_map_range nC c _ none hc]
  rfl

theorem cellOf_finalErrVar (means stds : List Spec2D) (nW nC w c : ℕ)
    (hw : w < nW) (hc : c < nC) :
    cellOf (finalErrVar means stds nW nC) w c =
      rescaleErrVarCell (flatErrsSqCell (entriesAt means stds w c))
        (combinedMax means stds nW nC) := by
  unfold finalErrVar cellOf
  rw [getD_map_range nW w _ [] hw, getD_map_range nC c _ none hc]

/-! ## C1: the combination formulas -/

/-- C1: at every (wavelength, channel) cell with at least one valid
normalized spectrum (and non-degenerate values: non-zero mean and std at
each valid entry, so no infinite SNR and a non-zero weight sum), the
combiner produces exactly the spec's formulas, over exactly the valid
entries: `combined_mean = Σ(weight·mean)/Σ(weight)` with
`weight = (mean/std)²`, and
`combined_std = sqrt(Σ((weight/Σweight · std)²))`; missing spectra
contribute to neither sum, and the result is unmasked. -/
theorem claimC1 (entries : List (Cell × Cell))
    (hvp : validPairs entries ≠ [])
    (hvals : ∀ q ∈ validPairs entries, q.1 ≠ 0 ∧ q.2 ≠ 0) :
    combineMeanCell entries =
      ⟨some ((((validPairs entries).map (fun q => (q.1 / q.2) ^ 2 * q.1)).sum) /
        weightSum entries), false⟩ ∧
    flatErrsSqCell entries =
      ⟨some (((validPairs entries).map
        (fun q => ((q.1 / q.2) ^ 2 / weightSum entries * q.2) ^ 2)).sum), false⟩ ∧
    Option.map (fun q : ℚ => Real.sqrt q) (flatErrsSqCell entries).data =
      some (Real.sqrt ((((validPairs entries).map
        (fun q => ((q.1 / q.2) ^ 2 / weightSum entries * q.2) ^ 2)).sum : ℚ))) := by
  have hs : ∀ q ∈ validPairs entries, q.2 ≠ 0 := fun q hq => (hvals q hq).2
  have hW : weightSum entries ≠ 0 := by
    unfold weightSum
    have hpos : 0 < ((validPairs entries).map (fun q => (q.1 / q.2) ^ 2)).sum := by
      apply List.sum_pos
      · intro x hx
        obtain ⟨q, hq, rfl⟩ := List.mem_map.mp hx
        obtain ⟨h1, h2⟩ := hvals q hq
        exact lt_of_le_of_ne (sq_nonneg _) (Ne.symm (pow_ne_zero 2 (div_ne_zero h1 h2)))
      · simpa using hvp
    exact ne_of_gt hpos
  refine ⟨combineMeanCell_eq entries hvp hs hW, flatErrsSqCell_eq entries hvp hs hW, ?_⟩
  rw [flatErrsSqCell_eq entries hvp hs hW]
  rfl

/-- Witness for C1 at a concrete cell: two spectra, the second missing. -/
theorem claimC1_witness :
    validPairs [((some 1 : Cell), (some 2 : Cell)), (none, none)] ≠ [] ∧
    (∀ q ∈ validPairs [((some 1 : Cell), (some 2 : Cell)), (none, none)],
      q.1 ≠ 0 ∧ q.2 ≠ 0) ∧
    combineMeanCell [((some 1 : Cell), (some 2 : Cell)), (none, none)] =
      ⟨some ((((validPairs [((some 1 : Cell), (some 2 : Cell)), (none, none)]).map
        (fun q => (q.1 / q.2) ^ 2 * q.1)).sum) /
        weightSum [((some 1 : Cell), (some 2 : Cell)), (none, none)]), false⟩ := by
  refine ⟨by decide, by decide, ?_⟩
  exact (claimC1 [((some 1 : Cell), (some 2 : Cell)), (none, none)]
    (by decide) (by decide)).1

/-! ## C6: combining a spectrum with an identical copy of itself -/

/-- C6: at every valid cell (strictly positive mean and std), combining
the two-element set consisting of two identical copies of a spectrum
gives back the original mean and the original std divided by √2, before
the unit-peak rescale. -/
theorem claimC6 (mean std : Spec2D) (w c : ℕ) (m s : ℚ)
    (hm : cellOf mean w c = some m) (hsv : cellOf std w c = some s)
    (hmp : 0 < m) (hsp : 0 < s) :
    combineMeanCell (entriesAt [mean, mean] [std, std] w c) = ⟨some m, false⟩ ∧
    flatErrsSqCell (entriesAt [mean, mean] [std, std] w c) =
      ⟨some (s ^ 2 / 2), false⟩ ∧
    Option.map (fun q : ℚ => Real.sqrt q)
      (flatErrsSqCell (entriesAt [mean, mean] [std, std] w c)).data =
      some ((s : ℝ) / Real.sqrt 2) := by
  have hE : entriesAt [mean, mean] [std, std] w c =
      [(some m, some s), (some m, some s)] := by
    simp [entriesAt, cellOf] at hm hsv ⊢
    simp [hm, hsv]
  have hs0 : s ≠ 0 := ne_of_gt hsp
  have hm0 : m ≠ 0 := ne_of_gt hmp
  have hvp : validPairs [((some m : Cell), (some s : Cell)), (some m, some s)] =
      [(m, s), (m, s)] := by
    simp [validPairs]
  have hvpne : validPairs [((some m : Cell), (some s : Cell)), (some m, some s)] ≠ [] := by
    rw [hvp]; simp
  have hsne : ∀ q ∈ validPairs [((some m : Cell), (some s : Cell)), (some m, some s)],
      q.2 ≠ 0 := by
    rw [hvp]
    intro q hq
    simp only [List.mem_cons, List.not_mem_nil, or_false] at hq
    rcases hq with rfl | rfl <;> exact hs0
  have hWpos : (0 : ℚ) < (m / s) ^ 2 := by positivity
  have hW : weightSum [((some m : Cell), (some s : Cell)), (some m, some s)] ≠ 0 := by
    unfold weightSum
    rw [hvp]
    simp only [List.map_cons, List.map_nil, List.sum_cons, List.sum_nil]
    nlinarith
  rw [hE]
  have h1 := combineMeanCell_eq _ hvpne hsne hW
  have h2 := flatErrsSqCell_eq _ hvpne hsne hW
  have hWval : weightSum [((some m : Cell), (some s : Cell)), (some m, some s)] =
      2 * (m / s) ^ 2 := by
    unfold weightSum
    rw [hvp]
    simp only [List.map_cons, List.map_nil, List.sum_cons, List.sum_nil]
    ring
  have hmean : combineMeanCell [((some m : Cell), (some s : Cell)), (some m, some s)] =
      ⟨some m, false⟩ := by
    rw [h1, hvp, hWval]
    congr 2
    simp only [List.map_cons, List.map_nil, List.sum_cons, List.sum_nil]
    field_simp
    ring
  have herr : flatErrsSqCell [((some m : Cell), (some s : Cell)), (some m, some s)] =
      ⟨some (s ^ 2 / 2), false⟩ := by
    rw [h2, hvp, hWval]
    congr 2
    simp only [List.map_cons, List.map_nil, List.sum_cons, List.sum_nil]
    field_simp
    ring
  refine ⟨hmean, herr, ?_⟩
  rw [herr]
  show some (Real.sqrt ((s ^ 2 / 2 : ℚ) : ℝ)) = some ((s : ℝ) / Real.sqrt 2)
  have hcast : ((s ^ 2 / 2 : ℚ) : ℝ) = (s : ℝ) ^ 2 / 2 := by push_cast; ring
  rw [hcast, Real.sqrt_div (by positivity) 2, Real.sqrt_sq (by positivity)]

/-- Witness for C6 at a concrete cell. -/
theorem claimC6_witness :
    combineMeanCell (entriesAt [[[some 1]], [[some 1]]] [[[some 2]], [[some 2]]] 0 0) =
      ⟨some 1, false⟩ ∧
    flatErrsSqCell (entriesAt [[[some 1]], [[some 1]]] [[[some 2]], [[some 2]]] 0 0) =
      ⟨some ((2 : ℚ) ^ 2 / 2), false⟩ ∧
    Option.map (fun q : ℚ => Real.sqrt q)
      (flatErrsSqCell (entriesAt [[[some 1]], [[some 1]]] [[[some 2]], [[some 2]]] 0 0)).data =
      some (((2 : ℚ) : ℝ) / Real.sqrt 2) :=
  claimC6 [[some 1]] [[some 2]] 0 0 1 2 (by decide) (by decide) (by decide) (by decide)

/-! ## C8: all-missing cells after the final rescale and mask removal -/

/-- Counterexample to C8 as stated: at the all-missing cell (wavelength
index 1) the final response is indeed missing, but the final error is
`0`, not missing: `np.ma.sum` fills fully masked reductions with data 0
and the terminal `.data` drops the mask, so downstream consumers see a
zero std, contradicting the claim that both mean and std stay missing. -/
theorem claimC8_counterexample :
    (∀ p ∈ entriesAt [egSpec8] [egSpec8] 1 0, p.1 = none ∧ p.2 = none) ∧
    cellOf (finalResponse [egSpec8] [egSpec8] 2 1) 1 0 = none ∧
    cellOf (finalErrVar [egSpec8] [egSpec8] 2 1) 1 0 = some 0 := by
  with_unfolding_all decide

/-- C8 amended: at a cell where no spectrum holds valid data, the
terminal combined mean is missing (NaN), but the terminal combined std
is `0` — a concrete fill value, not missing — because the masked sum
fills the fully masked reduction with data 0 and the final `.data`
removes the mask.  (The unit-peak maximum is assumed to exist and be
non-zero, i.e. some cell somewhere is valid.) -/
theorem claimC8_amended (means stds : List Spec2D) (nW nC w c : ℕ) (Mx : ℚ)
    (hw : w < nW) (hc : c < nC)
    (hall : ∀ p ∈ entriesAt means stds w c, p.1 = none ∧ p.2 = none)
    (hmax : combinedMax means stds nW nC = some Mx) (hMx : Mx ≠ 0) :
    cellOf (finalResponse means stds nW nC) w c = none ∧
    cellOf (finalErrVar means stds nW nC) w c = some 0 ∧
    Option.map (fun q : ℚ => Real.sqrt q)
      (cellOf (finalErrVar means stds nW nC) w c) = some 0 := by
  rw [cellOf_finalResponse means stds nW nC w c hw hc,
    cellOf_finalErrVar means stds nW nC w c hw hc,
    combineMeanCell_allMissing _ hall, flatErrsSqCell_allMissing _ hall, hmax]
  have hMM : Mx * Mx ≠ 0 := mul_ne_zero hMx hMx
  refine ⟨by simp [rescaleMeanCell, mdivD, ddiv], ?_, ?_⟩
  · simp [rescaleErrVarCell, mdivD, ddiv, dmul, hMM]
  · simp [rescaleErrVarCell, mdivD, ddiv, dmul, hMM, Real.sqrt_zero]

/-- Witness for the amended C8 at the concrete input of the
counterexample. -/
theorem claimC8_amended_witness :
    combinedMax [egSpec8] [egSpec8] 2 1 = some 1 ∧
    cellOf (finalResponse [egSpec8] [egSpec8] 2 1) 1 0 = none ∧
    cellOf (finalErrVar [egSpec8] [egSpec8] 2 1) 1 0 = some 0 ∧
    Option.map (fun q : ℚ => Real.sqrt q)
      (cellOf (finalErrVar [egSpec8] [egSpec8] 2 1) 1 0) = some 0 := by
  have h := claimC8_amended [egSpec8] [egSpec8] 2 1 1 0 1 (by decide) (by decide)
    (by decide) (by with_unfolding_all decide) (by decide)
  exact ⟨by with_unfolding_all decide, h.1, h.2.1, h.2.2⟩

/-! ## C7: the overlap score -/

theorem countP_zip_self (row : List Cell) :
    ((row.zip row).map (fun p => dadd p.1 p.2)).countP Option.isSome =
      row.countP Option.isSome := by
  induction row with
  | nil => rfl
  | cons x xs ih =>
    rw [List.zip_cons_cons, List.map_cons, List.countP_cons, List.countP_cons, ih]
    cases x <;> rfl

theorem overlap2_self (a : Spec2D) :
    overlap2 a a = (a.map (fun row => row.countP Option.isSome)).sum := by
  induction a with
  | nil => rfl
  | cons r rs ih =>
    unfold overlap2 at ih ⊢
    simp only [List.zip_cons_cons, List.map_cons, List.sum_cons, ih, countP_zip_self]

theorem overlap2_count (a b : Spec2D) :
    overlap2 a b = ((a.zip b).map (fun rc =>
      (rc.1.zip rc.2).countP (fun p => p.1.isSome && p.2.isSome))).sum := by
  unfold overlap2
  congr 1
  apply List.map_congr_left
  intro rc _
  rw [List.countP_map]
  apply List.countP_congr
  intro p _
  simp [Function.comp, dadd_isSome]

/-- C7: the overlap score of a spectrum with itself is its total count
of valid (non-missing) cells, and the overlap score of two spectra
(the count of finite cells of their NaN-propagating sum) counts exactly
the (wavelength, channel) cells where both hold a value. -/
theorem claimC7 :
    (∀ a : Spec2D, overlap2 a a = (a.map (fun row => row.countP Option.isSome)).sum) ∧
    (∀ a b : Spec2D, overlap2 a b =
      ((a.zip b).map (fun rc =>
        (rc.1.zip rc.2).countP (fun p => p.1.isSome && p.2.isSome))).sum) :=
  ⟨overlap2_self, overlap2_count⟩

/-! ## Properties of argsort, argmax and the normalise order -/

theorem argsortN_perm (l : List ℕ) : (argsortN l).Perm (List.range l.length) := by
  unfold argsortN
  have h := (List.perm_insertionSort idxLE l.enum).map Prod.fst
  rwa [List.enum_map_fst] at h

theorem argsortN_length (l : List ℕ) : (argsortN l).length = l.length := by
  rw [(argsortN_perm l).length_eq, List.length_range]

theorem argsortN_nodup (l : List ℕ) : (argsortN l).Nodup :=
  ((argsortN_perm l).nodup_iff).mpr (List.nodup_range _)

theorem argsortN_mem {l : List ℕ} {i : ℕ} (h : i ∈ argsortN l) : i < l.length := by
  have := (argsortN_perm l).mem_iff.mp h
  simpa using this

theorem mem_argsortN {l : List ℕ} {i : ℕ} (h : i < l.length) : i ∈ argsortN l :=
  (argsortN_perm l).mem_iff.mpr (List.mem_range.mpr h)

theorem argsortN_pairwise (l : List ℕ) :
    List.Pairwise (fun i j => l.getD i 0 ≤ l.getD j 0) (argsortN l) := by
  unfold argsortN
  rw [List.pairwise_map]
  refine List.Pairwise.imp_of_mem ?_ (List.sorted_insertionSort idxLE l.enum)
  intro a b ha hb hab
  have ha2 : l.getD a.1 0 = a.2 := by
    have hmem : a ∈ l.enum := (List.mem_insertionSort idxLE).mp ha
    have := List.mem_enum_iff_getElem?.mp hmem
    simp [List.getD_eq_getElem?_getD, this]
  have hb2 : l.getD b.1 0 = b.2 := by
    have hmem : b ∈ l.enum := (List.mem_insertionSort idxLE).mp hb
    have := List.mem_enum_iff_getElem?.mp hmem
    simp [List.getD_eq_getElem?_getD, this]
  rw [ha2, hb2]
  rcases hab with h | ⟨h, -⟩
  · exact le_of_lt h
  · exact le_of_eq h

theorem argsortN_getLast (l : List ℕ) (b : ℕ) (hb : b < l.length)
    (huniq : ∀ j, j < l.length → j ≠ b → l.getD j 0 < l.getD b 0)
    (hne : argsortN l ≠ []) :
    (argsortN l).getLast hne = b := by
  by_contra hcon
  have hbmem : b ∈ argsortN l := mem_argsortN hb
  have hdecomp := List.dropLast_append_getLast hne
  have hbdl : b ∈ (argsortN l).dropLast := by
    have hmem2 : b ∈ (argsortN l).dropLast ++ [(argsortN l).getLast hne] := by
      rw [hdecomp]; exact hbmem
    rcases List.mem_append.mp hmem2 with h | h
    · exact h
    · exact absurd (List.mem_singleton.mp h).symm hcon
  have hpw := argsortN_pairwise l
  rw [← hdecomp] at hpw
  have hle := (List.pairwise_append.mp hpw).2.2 b hbdl ((argsortN l).getLast hne)
    (List.mem_singleton_self _)
  have hlast_mem : (argsortN l).getLast hne ∈ argsortN l := List.getLast_mem hne
  have hlast_lt := argsortN_mem hlast_mem
  have hlt := huniq ((argsortN l).getLast hne) hlast_lt hcon
  omega

/-- The decomposition of the normalise order when `b` holds the unique
strict maximum of the key row: `b` is dropped, the rest is a permutation
of the other indices, sorted descending by key. -/
theorem order_spec (l : List ℕ) (b : ℕ) (hb : b < l.length)
    (huniq : ∀ j, j < l.length → j ≠ b → l.getD j 0 < l.getD b 0) :
    b ∉ ((argsortN l).dropLast).reverse ∧
    (((argsortN l).dropLast).reverse).Perm
      ((List.range l.length).filter (fun j => j != b)) ∧
    List.Pairwise (fun i j => l.getD j 0 ≤ l.getD i 0)
      (((argsortN l).dropLast).reverse) := by
  have hne : argsortN l ≠ [] := by
    intro h
    have := argsortN_length l
    rw [h] at this
    simp at this
    omega
  have hlast := argsortN_getLast l b hb huniq hne
  have hdecomp := List.dropLast_append_getLast hne
  rw [hlast] at hdecomp
  have hnodup := argsortN_nodup l
  have hbnotdl : b ∉ (argsortN l).dropLast := by
    intro hmem
    rw [← hdecomp] at hnodup
    rcases List.nodup_append.mp hnodup with ⟨-, -, hdisj⟩
    exact hdisj hmem (List.mem_singleton_self b)
  refine ⟨by simpa using hbnotdl, ?_, ?_⟩
  · have hperm := argsortN_perm l
    rw [← hdecomp] at hperm
    have h1 : ((argsortN l).dropLast ++ [b]).erase b = (argsortN l).dropLast := by
      rw [List.erase_append_right _ hbnotdl]
      simp
    have h2 := hperm.erase b
    rw [h1, (List.nodup_range l.length).erase_eq_filter b] at h2
    exact (List.reverse_perm _).trans h2
  · have hpw := argsortN_pairwise l
    have hdl := List.Pairwise.sublist (List.dropLast_sublist (argsortN l)) hpw
    exact (List.pairwise_reverse).mpr hdl

theorem foldr_max_mem (l : List ℕ) (h : l ≠ []) : l.foldr max 0 ∈ l := by
  induction l with
  | nil => exact absurd rfl h
  | cons x xs ih =>
    cases xs with
    | nil => simp
    | cons y ys =>
      rcases max_choice x ((y :: ys).foldr max 0) with hm | hm
      · rw [List.foldr_cons, hm]
        exact List.mem_cons_self _ _
      · rw [List.foldr_cons, hm]
        exact List.mem_cons_of_mem _ (ih (by simp))

theorem argmaxN_lt (l : List ℕ) (h : l ≠ []) : argmaxN l < l.length := by
  unfold argmaxN
  exact List.indexOf_lt_length.mpr (foldr_max_mem l h)

theorem diagOf_length (M : List (List ℕ)) : (diagOf M).length = M.length := by
  simp [diagOf]

theorem baselineIdx_lt (specs : List Spec2D) (h : specs ≠ []) :
    baselineIdx (overlapsMatrix specs) < specs.length := by
  unfold baselineIdx
  have hlen : (diagOf (overlapsMatrix specs)).length = specs.length := by
    rw [diagOf_length]
    simp [overlapsMatrix]
  rw [← hlen]
  apply argmaxN_lt
  intro hnil
  rw [hnil] at hlen
  simp at hlen
  exact h (List.length_eq_zero.mp hlen.symm)

theorem overlapsRow (specs : List Spec2D) (i : ℕ) (hi : i < specs.length) :
    (overlapsMatrix specs).getD i [] =
      specs.map (fun m1 => overlap2 m1 (specs.getD i [])) := by
  unfold overlapsMatrix
  rw [List.getD_eq_getElem?_getD, List.getElem?_map, List.getElem?_eq_getElem hi]
  simp [List.getD_eq_getElem?_getD, List.getElem?_eq_getElem hi]

theorem overlapsRow_length (specs : List Spec2D) (i : ℕ) (hi : i < specs.length) :
    ((overlapsMatrix specs).getD i []).length = specs.length := by
  rw [overlapsRow specs i hi, List.length_map]

theorem overlapsRow_getD (specs : List Spec2D) (i j : ℕ) (hi : i < specs.length)
    (hj : j < specs.length) :
    ((overlapsMatrix specs).getD i []).getD j 0 =
      overlap2 (specs.getD j []) (specs.getD i []) := by
  rw [overlapsRow specs i hi, List.getD_eq_getElem?_getD, List.getElem?_map,
    List.getElem?_eq_getElem hj]
  simp [List.getD_eq_getElem?_getD, List.getElem?_eq_getElem hj]

/-! ## C3: the normalise order -/

/-- Counterexample to C3 as stated: with two identically covered
spectra the baseline is spectrum 0, yet the normalise order is `[0]` —
it contains the baseline itself and omits spectrum 1, because
`np.argsort` leaves the tied baseline in the next-to-last slot and
`[-2::-1]` keeps it. -/
theorem claimC3_counterexample :
    baselineIdx (overlapsMatrix egPairC3) = 0 ∧
    0 ∈ normaliseOrderOf (overlapsMatrix egPairC3) ∧
    1 ∉ normaliseOrderOf (overlapsMatrix egPairC3) := by
  with_unfolding_all decide

/-- C3 amended: provided every other spectrum's overlap with the
baseline is strictly below the baseline's self-overlap (no tie in the
baseline's overlap row), the normalise order contains exactly the
spectra other than the baseline, each exactly once, sorted by
descending overlap with the baseline, and the baseline never appears. -/
theorem claimC3_amended (specs : List Spec2D) (hn : 2 ≤ specs.length)
    (huniq : ∀ j, j < specs.length → j ≠ baselineIdx (overlapsMatrix specs) →
      ((overlapsMatrix specs).getD (baselineIdx (overlapsMatrix specs)) []).getD j 0 <
      ((overlapsMatrix specs).getD (baselineIdx (overlapsMatrix specs)) []).getD
        (baselineIdx (overlapsMatrix specs)) 0) :
    baselineIdx (overlapsMatrix specs) ∉ normaliseOrderOf (overlapsMatrix specs) ∧
    (normaliseOrderOf (overlapsMatrix specs)).Perm
      ((List.range specs.length).filter
        (fun j => j != baselineIdx (overlapsMatrix specs))) ∧
    List.Pairwise (fun i j =>
      ((overlapsMatrix specs).getD (baselineIdx (overlapsMatrix specs)) []).getD j 0 ≤
      ((overlapsMatrix specs).getD (baselineIdx (overlapsMatrix specs)) []).getD i 0)
      (normaliseOrderOf (overlapsMatrix specs)) := by
  have hsne : specs ≠ [] := by
    intro h
    rw [h] at hn
    simp at hn
  have hb := baselineIdx_lt specs hsne
  have hrowlen := overlapsRow_length specs (baselineIdx (overlapsMatrix specs)) hb
  have h := order_spec ((overlapsMatrix specs).getD (baselineIdx (overlapsMatrix specs)) [])
    (baselineIdx (overlapsMatrix specs)) (by rw [hrowlen]; exact hb)
    (fun j hj hne => huniq j (by rwa [hrowlen] at hj) hne)
  rw [hrowlen] at h
  exact h

/-- Witness for the amended C3: two spectra, the first with strictly
more coverage. -/
theorem claimC3_amended_witness :
    (2 ≤ ([[[some 1, some 1]], [[some 1, none]]] : List Spec2D).length) ∧
    (baselineIdx (overlapsMatrix [[[some 1, some 1]], [[some 1, none]]]) = 0) ∧
    (baselineIdx (overlapsMatrix [[[some 1, some 1]], [[some 1, none]]]) ∉
      normaliseOrderOf (overlapsMatrix [[[some 1, some 1]], [[some 1, none]]])) ∧
    (normaliseOrderOf (overlapsMatrix [[[some 1, some 1]], [[some 1, none]]])).Perm
      ((List.range ([[[some 1, some 1]], [[some 1, none]]] : List Spec2D).length).filter
        (fun j => j != baselineIdx (overlapsMatrix [[[some 1, some 1]], [[some 1, none]]]))) := by
  have h := claimC3_amended [[[some 1, some 1]], [[some 1, none]]] (by decide)
    (by with_unfolding_all decide)
  exact ⟨by decide, by with_unfolding_all decide, h.1, h.2.1⟩

/-! ## C5: the baseline's entry through the loop -/

theorem getD_set_ne {α : Type} (l : List α) (i b : ℕ) (a d : α) (h : i ≠ b) :
    (l.set i a).getD b d = l.getD b d := by
  rw [List.getD_eq_getElem?_getD, List.getD_eq_getElem?_getD, List.getElem?_set]
  simp [h]

theorem normaliseStep_getD_ne (grid : List ℚ) (calMeans calStds : List Spec2D)
    (M : List (List ℕ)) (bl i : ℕ) (st st' : List Spec2D × List Spec2D)
    (h : normaliseStep grid calMeans calStds M bl st i = some st') (b : ℕ)
    (hne : i ≠ b) :
    st'.1.getD b [] = st.1.getD b [] ∧ st'.2.getD b [] = st.2.getD b [] := by
  unfold normaliseStep at h
  rcases Option.map_eq_some'.mp h with ⟨fits, -, hst⟩
  rw [← hst]
  exact ⟨getD_set_ne _ i b _ _ hne, getD_set_ne _ i b _ _ hne⟩

theorem foldlM_getD_preserved (grid : List ℚ) (calMeans calStds : List Spec2D)
    (M : List (List ℕ)) (bl : ℕ) (l : List ℕ) (b : ℕ) (hb : ∀ i ∈ l, i ≠ b) :
    ∀ st st', l.foldlM (normaliseStep grid calMeans calStds M bl) st = some st' →
      st'.1.getD b [] = st.1.getD b [] ∧ st'.2.getD b [] = st.2.getD b [] := by
  induction l with
  | nil =>
    intro st st' h
    simp only [List.foldlM_nil] at h
    cases h
    exact ⟨rfl, rfl⟩
  | cons x xs ih =>
    intro st st' h
    rw [List.foldlM_cons] at h
    cases hstep : normaliseStep grid calMeans calStds M bl st x with
    | none => rw [hstep] at h; simp at h
    | some s1 =>
      rw [hstep] at h
      simp only [Option.bind_eq_bind, Option.some_bind] at h
      have h1 := normaliseStep_getD_ne grid calMeans calStds M bl x st s1 hstep b
        (hb x (List.mem_cons_self _ _))
      have h2 := ih (fun k hk => hb k (List.mem_cons_of_mem _ hk)) s1 st' h
      exact ⟨h2.1.trans h1.1, h2.2.trans h1.2⟩

/-- Counterexample to C5 as stated: with two identically covered
spectra the baseline (spectrum 0) appears in the normalise order, so the
loop's iteration for `i = 0` assigns `all_means_normalised[0]` and
`all_stds_normalised[0]` — the baseline's entry is written (it is
normalised against itself), contrary to the claim that the loop never
writes it. -/
theorem claimC5_counterexample :
    baselineIdx (overlapsMatrix egPairC5) = 0 ∧
    0 ∈ normaliseOrderOf (overlapsMatrix egPairC5) := by
  with_unfolding_all decide

/-- C5 amended: provided no other spectrum ties the baseline's
self-overlap in the baseline's overlap row, the baseline never appears
in the normalise order, and after any successful run of the loop the
baseline's mean and std entries are exactly its calibrated ones. -/
theorem claimC5_amended (grid : List ℚ) (calMeans calStds : List Spec2D)
    (st' : List Spec2D × List Spec2D)
    (hn : calMeans ≠ [])
    (huniq : ∀ j, j < calMeans.length → j ≠ baselineIdx (overlapsMatrix calMeans) →
      ((overlapsMatrix calMeans).getD (baselineIdx (overlapsMatrix calMeans)) []).getD j 0 <
      ((overlapsMatrix calMeans).getD (baselineIdx (overlapsMatrix calMeans)) []).getD
        (baselineIdx (overlapsMatrix calMeans)) 0)
    (hrun : normaliseRun grid calMeans calStds = some st') :
    baselineIdx (overlapsMatrix calMeans) ∉ normaliseOrderOf (overlapsMatrix calMeans) ∧
    st'.1.getD (baselineIdx (overlapsMatrix calMeans)) [] =
      calMeans.getD (baselineIdx (overlapsMatrix calMeans)) [] ∧
    st'.2.getD (baselineIdx (overlapsMatrix calMeans)) [] =
      calStds.getD (baselineIdx (overlapsMatrix calMeans)) [] := by
  have hb := baselineIdx_lt calMeans hn
  have hrowlen := overlapsRow_length calMeans (baselineIdx (overlapsMatrix calMeans)) hb
  have hspec := order_spec
    ((overlapsMatrix calMeans).getD (baselineIdx (overlapsMatrix calMeans)) [])
    (baselineIdx (overlapsMatrix calMeans)) (by rw [hrowlen]; exact hb)
    (fun j hj hne => huniq j (by rwa [hrowlen] at hj) hne)
  have hnotmem : baselineIdx (overlapsMatrix calMeans) ∉
      normaliseOrderOf (overlapsMatrix calMeans) := hspec.1
  refine ⟨hnotmem, ?_, ?_⟩
  all_goals {
    unfold normaliseRun at hrun
    have := foldlM_getD_preserved grid calMeans calStds (overlapsMatrix calMeans)
      (baselineIdx (overlapsMatrix calMeans)) (normaliseOrderOf (overlapsMatrix calMeans))
      (baselineIdx (overlapsMatrix calMeans))
      (fun k hk heq => hnotmem (heq ▸ hk)) (calMeans, calStds) st' hrun
    first
    | exact this.1
    | exact this.2
  }

/-- Witness for the amended C5: spectrum 0 covers four cells, spectrum 1
three of them; the run succeeds (the ratio is constant 1 over three
points, fitted exactly) and leaves the baseline untouched. -/
theorem claimC5_amended_witness :
    normaliseRun [1, 2, 3, 4]
      [[[some 1], [some 1], [some 1], [some 1]], [[none], [some 1], [some 1], [some 1]]]
      [[[some 1], [some 1], [some 1], [some 1]], [[none], [some 1], [some 1], [some 1]]] =
      some ([[[some 1], [some 1], [some 1], [some 1]], [[none], [some 1], [some 1], [some 1]]],
            [[[some 1], [some 1], [some 1], [some 1]], [[none], [some 1], [some 1], [some 1]]]) ∧
    baselineIdx (overlapsMatrix
      [[[some 1], [some 1], [some 1], [some 1]], [[none], [some 1], [some 1], [some 1]]]) ∉
      normaliseOrderOf (overlapsMatrix
      [[[some 1], [some 1], [some 1], [some 1]], [[none], [some 1], [some 1], [some 1]]]) ∧
    (([[[some 1], [some 1], [some 1], [some 1]], [[none], [some 1], [some 1], [some 1]]],
      [[[some 1], [some 1], [some 1], [some 1]], [[none], [some 1], [some 1], [some 1]]]) :
        List Spec2D × List Spec2D).1.getD (baselineIdx (overlapsMatrix
      [[[some 1], [some 1], [some 1], [some 1]], [[none], [some 1], [some 1], [some 1]]])) [] =
      ([[[some 1], [some 1], [some 1], [some 1]], [[none], [some 1], [some 1], [some 1]]] :
        List Spec2D).getD (baselineIdx (overlapsMatrix
      [[[some 1], [some 1], [some 1], [some 1]], [[none], [some 1], [some 1], [some 1]]])) [] := by
  have hrun : normaliseRun [1, 2, 3, 4]
      [[[some 1], [some 1], [some 1], [some 1]], [[none], [some 1], [some 1], [some 1]]]
      [[[some 1], [some 1], [some 1], [some 1]], [[none], [some 1], [some 1], [some 1]]] =
      some ([[[some 1], [some 1], [some 1], [some 1]], [[none], [some 1], [some 1], [some 1]]],
            [[[some 1], [some 1], [some 1], [some 1]], [[none], [some 1], [some 1], [some 1]]]) := by
    with_unfolding_all decide
  have h := claimC5_amended [1, 2, 3, 4]
    [[[some 1], [some 1], [some 1], [some 1]], [[none], [some 1], [some 1], [some 1]]]
    [[[some 1], [some 1], [some 1], [some 1]], [[none], [some 1], [some 1], [some 1]]]
    _ (by decide) (by with_unfolding_all decide) hrun
  exact ⟨hrun, h.1, h.2.1⟩

/-! ## C4: a spectrum with no overlap -/

theorem ddiv_isSome {x y : Cell} (h : (ddiv x y).isSome) : x.isSome ∧ y.isSome := by
  cases x <;> cases y <;> simp_all [ddiv]

theorem normCell_isSome {v : Cell} {f : ℚ} (h : (normCell v f).isSome) : v.isSome := by
  cases v
  · simp [normCell, ddiv] at h
  · rfl

theorem cellOf_isSome_bounds {sp : Spec2D} {w c : ℕ} (h : (cellOf sp w c).isSome) :
    w < sp.length ∧ c < (sp.getD w []).length := by
  unfold cellOf at h
  constructor
  · by_contra hw
    push_neg at hw
    rw [List.getD_eq_getElem?_getD sp w [], List.getElem?_eq_none (by simpa using hw)] at h
    simp at h
  · by_contra hc
    push_neg at hc
    rw [List.getD_eq_getElem?_getD _ c none, List.getElem?_eq_none (by simpa using hc)] at h
    simp at h

theorem getD_eq_getElem {α : Type} (l : List α) (i : ℕ) (d : α) (h : i < l.length) :
    l.getD i d = l[i] := by
  rw [List.getD_eq_getElem?_getD, List.getElem?_eq_getElem h]
  rfl

theorem countP_zip_comm (r1 r2 : List Cell) :
    ((r1.zip r2).map (fun p => dadd p.1 p.2)).countP Option.isSome =
      ((r2.zip r1).map (fun p => dadd p.1 p.2)).countP Option.isSome := by
  induction r1 generalizing r2 with
  | nil => cases r2 <;> rfl
  | cons x xs ih =>
    cases r2 with
    | nil => rfl
    | cons y ys =>
      rw [List.zip_cons_cons, List.zip_cons_cons, List.map_cons, List.map_cons,
        List.countP_cons, List.countP_cons, ih ys, dadd_comm]

theorem overlap2_comm (a b : Spec2D) : overlap2 a b = overlap2 b a := by
  unfold overlap2
  induction a generalizing b with
  | nil => cases b <;> rfl
  | cons r rs ih =>
    cases b with
    | nil => rfl
    | cons r2 rs2 =>
      rw [List.zip_cons_cons, List.zip_cons_cons, List.map_cons, List.map_cons,
        List.sum_cons, List.sum_cons, countP_zip_comm, ih rs2]

theorem overlap2_pos_of_cell (a b : Spec2D) (w c : ℕ)
    (ha : (cellOf a w c).isSome) (hb : (cellOf b w c).isSome) :
    overlap2 a b ≠ 0 := by
  obtain ⟨hwa, hca⟩ := cellOf_isSome_bounds ha
  obtain ⟨hwb, hcb⟩ := cellOf_isSome_bounds hb
  rw [getD_eq_getElem a w [] hwa] at hca
  rw [getD_eq_getElem b w [] hwb] at hcb
  unfold overlap2
  intro hsum
  rw [List.sum_eq_zero_iff] at hsum
  have hwz : w < (a.zip b).length := by rw [List.length_zip]; omega
  have helem := hsum _ (List.mem_map_of_mem _ (List.getElem_mem hwz))
  rw [List.getElem_zip] at helem
  rw [List.countP_eq_zero] at helem
  have hcz : c < ((a[w]).zip (b[w])).length := by rw [List.length_zip]; omega
  have hnot := helem _ (List.mem_map_of_mem _ (List.getElem_mem hcz))
  rw [List.getElem_zip] at hnot
  apply hnot
  rw [dadd_isSome]
  unfold cellOf at ha hb
  rw [getD_eq_getElem a w [] hwa, getD_eq_getElem _ c none hca] at ha
  rw [getD_eq_getElem b w [] hwb, getD_eq_getElem _ c none hcb] at hb
  rw [ha, hb]
  rfl

theorem getD_set_self {α : Type} (l : List α) (k : ℕ) (a d : α) :
    (l.set k a).getD k d = if k < l.length then a else l.getD k d := by
  rw [List.getD_eq_getElem?_getD, List.getElem?_set]
  by_cases hk : k < l.length
  · simp [hk]
  · simp [hk, List.getD_eq_getElem?_getD, List.getElem?_eq_none (Nat.le_of_not_lt hk)]

theorem getD_map_range' {α : Type} (n i : ℕ) (f : ℕ → α) (d : α) :
    ((List.range n).map f).getD i d = if i < n then f i else d := by
  by_cases h : i < n
  · rw [getD_map_range n i f d h, if_pos h]
  · rw [if_neg h, List.getD_eq_getElem?_getD, List.getElem?_map]
    have hnone : (List.range n)[i]? = none := by
      rw [List.getElem?_eq_none]
      simpa using Nat.le_of_not_lt h
    rw [hnone]
    rfl

/-- Validity of cells only shrinks through a normalisation step: every
valid cell of the updated state was valid in the calibrated input (the
step divides calibrated values, and division maps NaN to NaN). -/
theorem normaliseStep_valid_mono (grid : List ℚ) (calMeans calStds : List Spec2D)
    (M : List (List ℕ)) (bl k : ℕ) (st st' : List Spec2D × List Spec2D)
    (h : normaliseStep grid calMeans calStds M bl st k = some st')
    (hQ : ∀ j w c, (cellOf (st.1.getD j []) w c).isSome →
      (cellOf (calMeans.getD j []) w c).isSome) :
    ∀ j w c, (cellOf (st'.1.getD j []) w c).isSome →
      (cellOf (calMeans.getD j []) w c).isSome := by
  unfold normaliseStep at h
  rcases Option.map_eq_some'.mp h with ⟨fits, -, hst⟩
  intro j w c hsome
  by_cases hj : k = j
  · subst hj
    rw [← hst] at hsome
    simp only at hsome
    rw [cellOf, getD_set_self] at hsome
    by_cases hk : k < st.1.length
    · rw [if_pos hk] at hsome
      rw [getD_map_range'] at hsome
      by_cases hw : w < (calMeans.getD k []).length
      · rw [if_pos hw, getD_map_range'] at hsome
        by_cases hc : c < ((calMeans.getD k []).getD 0 []).length
        · rw [if_pos hc] at hsome
          exact normCell_isSome hsome
        · rw [if_neg hc] at hsome
          simp at hsome
      · rw [if_neg hw] at hsome
        simp at hsome
    · rw [if_neg hk] at hsome
      exact hQ k w c hsome
  · rw [← hst] at hsome
    simp only at hsome
    rw [cellOf, getD_set_ne _ _ _ _ _ hj] at hsome
    exact hQ j w c hsome

theorem ratio_cell_decomp (ci cm : Spec2D) (w : ℕ)
    (h : (cellOf (ci.zipWith (fun ra rb => ra.zipWith ddiv rb) cm) w 0).isSome) :
    (cellOf ci w 0).isSome ∧ (cellOf cm w 0).isSome := by
  obtain ⟨hw, hc⟩ := cellOf_isSome_bounds h
  have hwc : w < ci.length := by rw [List.length_zipWith] at hw; omega
  have hwm : w < cm.length := by rw [List.length_zipWith] at hw; omega
  have hrow : (ci.zipWith (fun ra rb => ra.zipWith ddiv rb) cm).getD w [] =
      (ci.getD w []).zipWith ddiv (cm.getD w []) := by
    rw [getD_eq_getElem _ w [] hw, List.getElem_zipWith,
      getD_eq_getElem ci w [] hwc, getD_eq_getElem cm w [] hwm]
  rw [cellOf, hrow] at h
  rw [hrow, List.length_zipWith] at hc
  have h0a : 0 < (ci.getD w []).length := by omega
  have h0b : 0 < (cm.getD w []).length := by omega
  have hcell : ((ci.getD w []).zipWith ddiv (cm.getD w [])).getD 0 none =
      ddiv ((ci.getD w []).getD 0 none) ((cm.getD w []).getD 0 none) := by
    rw [getD_eq_getElem _ 0 none (by rw [List.length_zipWith]; omega), List.getElem_zipWith,
      getD_eq_getElem _ 0 none h0a, getD_eq_getElem _ 0 none h0b]
  rw [hcell] at h
  exact ddiv_isSome h

theorem mapM_head_none {β : Type} (f : ℕ → Option β) (m : ℕ) (h : f 0 = none) :
    (List.range (m + 1)).mapM f = none := by
  rw [List.range_succ_eq_map, List.mapM_cons, h]
  rfl

/-- If spectrum `i` (not the baseline) has zero overlap with every other
spectrum, its normalisation step fails on any state whose valid cells
are a subset of the calibrated ones: the comparison spectrum shares no
valid cell with `i`, so the ratio is NaN everywhere, the selected row
set is empty, and the polynomial fit receives no data. -/
theorem normaliseStep_none (grid : List ℚ) (calMeans calStds : List Spec2D)
    (bl i : ℕ) (st : List Spec2D × List Spec2D)
    (hQ : ∀ j w c, (cellOf (st.1.getD j []) w c).isSome →
      (cellOf (calMeans.getD j []) w c).isSome)
    (hbl : bl < calMeans.length) (hi : i < calMeans.length) (hne : i ≠ bl)
    (hch : ((calMeans.getD i []).getD 0 []).length ≠ 0)
    (hzero : ∀ j, j < calMeans.length → j ≠ i →
      overlap2 (calMeans.getD i []) (calMeans.getD j []) = 0) :
    normaliseStep grid calMeans calStds (overlapsMatrix calMeans) bl st i = none := by
  have hrowlen := overlapsRow_length calMeans i hi
  have hrowbl : ((overlapsMatrix calMeans).getD i []).getD bl 0 = 0 := by
    rw [overlapsRow_getD calMeans i bl hi hbl, overlap2_comm]
    exact hzero bl hbl (Ne.symm hne)
  have hcp : (overlap2 (calMeans.getD i []) (calMeans.getD i []) = 0) ∨
      (comparisonIdx (overlapsMatrix calMeans) bl i < calMeans.length ∧
       comparisonIdx (overlapsMatrix calMeans) bl i ≠ i) := by
    by_cases hself : overlap2 (calMeans.getD i []) (calMeans.getD i []) = 0
    · exact Or.inl hself
    · right
      have hcmp : comparisonIdx (overlapsMatrix calMeans) bl i =
          (argsortN ((overlapsMatrix calMeans).getD i [])).getD
            (((overlapsMatrix calMeans).getD i []).length - 2) 0 := by
        unfold comparisonIdx
        rw [hrowbl]
        simp
      have hmax : ∀ j, j < ((overlapsMatrix calMeans).getD i []).length → j ≠ i →
          ((overlapsMatrix calMeans).getD i []).getD j 0 <
          ((overlapsMatrix calMeans).getD i []).getD i 0 := by
        intro j hj hjne
        rw [hrowlen] at hj
        rw [overlapsRow_getD calMeans i j hi hj, overlapsRow_getD calMeans i i hi hi,
          overlap2_comm, hzero j hj hjne]
        omega
      have hasne : argsortN ((overlapsMatrix calMeans).getD i []) ≠ [] := by
        intro hnil
        have hl := argsortN_length ((overlapsMatrix calMeans).getD i [])
        rw [hnil, hrowlen] at hl
        simp at hl
        omega
      have hlast := argsortN_getLast ((overlapsMatrix calMeans).getD i []) i
        (by rw [hrowlen]; exact hi) hmax hasne
      have haslen : (argsortN ((overlapsMatrix calMeans).getD i [])).length =
          calMeans.length := by rw [argsortN_length, hrowlen]
      have hn2 : 2 ≤ calMeans.length := by omega
      have hidx : calMeans.length - 2 <
          (argsortN ((overlapsMatrix calMeans).getD i [])).length := by omega
      have hlastidx : calMeans.length - 1 <
          (argsortN ((overlapsMatrix calMeans).getD i [])).length := by omega
      have hgetd : (argsortN ((overlapsMatrix calMeans).getD i [])).getD
          (((overlapsMatrix calMeans).getD i []).length - 2) 0 =
          (argsortN ((overlapsMatrix calMeans).getD i []))[calMeans.length - 2] := by
        rw [hrowlen]
        exact getD_eq_getElem _ (calMeans.length - 2) 0 hidx
      constructor
      · rw [hcmp, hgetd]
        have hmem := List.getElem_mem hidx
        have := argsortN_mem hmem
        rwa [hrowlen] at this
      · rw [hcmp, hgetd]
        have hdecomp := List.dropLast_append_getLast hasne
        rw [hlast] at hdecomp
        have hnodup := argsortN_nodup ((overlapsMatrix calMeans).getD i [])
        have hinot : i ∉ (argsortN ((overlapsMatrix calMeans).getD i [])).dropLast := by
          intro hmem
          rw [← hdecomp] at hnodup
          rcases List.nodup_append.mp hnodup with ⟨-, -, hdisj⟩
          exact hdisj hmem (List.mem_singleton_self i)
        have hidx2 : calMeans.length - 2 <
            (argsortN ((overlapsMatrix calMeans).getD i [])).dropLast.length := by
          rw [List.length_dropLast, haslen]
          omega
        have hdlel := List.getElem_dropLast _ (calMeans.length - 2) hidx2
        have hmem2 : (argsortN ((overlapsMatrix calMeans).getD i []))[calMeans.length - 2] ∈
            (argsortN ((overlapsMatrix calMeans).getD i [])).dropLast := by
          rw [← hdlel]
          exact List.getElem_mem hidx2
        intro heq
        rw [heq] at hmem2
        exact hinot hmem2
  have hnone : ∀ w, ¬ ((cellOf ((calMeans.getD i []).zipWith
      (fun ra rb => ra.zipWith ddiv rb)
      (st.1.getD (comparisonIdx (overlapsMatrix calMeans) bl i) [])) w 0).isSome = true) := by
    intro w hsome
    obtain ⟨h1, h2⟩ := ratio_cell_decomp _ _ w hsome
    rcases hcp with hself | ⟨hcplt, hcpne⟩
    · exact overlap2_pos_of_cell _ _ w 0 h1 h1 hself
    · have h2' := hQ _ w 0 h2
      exact overlap2_pos_of_cell _ _ w 0 h1 h2' (hzero _ hcplt hcpne)
  unfold normaliseStep
  rw [Option.map_eq_none']
  obtain ⟨m, hm⟩ : ∃ m, ((calMeans.getD i []).getD 0 []).length = m + 1 :=
    ⟨((calMeans.getD i []).getD 0 []).length - 1, by omega⟩
  rw [hm]
  apply mapM_head_none
  have hind : (List.range ((calMeans.getD i []).zipWith
      (fun ra rb => ra.zipWith ddiv rb)
      (st.1.getD (comparisonIdx (overlapsMatrix calMeans) bl i) [])).length).filter
      (fun w => ((((calMeans.getD i []).zipWith (fun ra rb => ra.zipWith ddiv rb)
        (st.1.getD (comparisonIdx (overlapsMatrix calMeans) bl i) [])).getD w []).getD 0
          none).isSome) = [] := by
    rw [List.filter_eq_nil_iff]
    intro w hw
    exact hnone w
  rw [hind]
  simp [polyfit2]

theorem foldlM_none {α σ : Type} (f : σ → α → Option σ) (P : σ → Prop) (l : List α)
    (i : α) (hi : i ∈ l)
    (hpres : ∀ s k s', P s → f s k = some s' → P s')
    (hfail : ∀ s, P s → f s i = none) :
    ∀ init, P init → l.foldlM f init = none := by
  induction l with
  | nil => simp at hi
  | cons x xs ih =>
    intro init hP
    rw [List.foldlM_cons]
    rcases List.mem_cons.mp hi with rfl | hi2
    · rw [hfail init hP]
      rfl
    · cases hstep : f init x with
      | none => rfl
      | some s1 =>
        simp only [Option.bind_eq_bind, Option.some_bind]
        exact ih hi2 s1 (hpres init x s1 hP hstep)

/-- Counterexample to C4 as stated: spectrum 0 (egA4) has zero overlap
with both other spectra, yet it is chosen as the baseline (largest
self-overlap, first argmax), so it is never normalised; the two
remaining spectra normalise against each other through the fallback
comparison, the run completes without any error, and spectrum 0's data
is merged into the combined curve (the response at its cells is its own
value, at an arbitrary relative scale).  No `NoOverlap` error is
surfaced anywhere. -/
theorem claimC4_counterexample :
    overlap2 egA4 egB4 = 0 ∧
    baselineIdx (overlapsMatrix [egA4, egB4, egB4]) = 0 ∧
    (normaliseRun [1, 2, 3, 4, 5, 6] [egA4, egB4, egB4] [egA4, egB4, egB4]).isSome = true ∧
    (pipelineOut [1, 2, 3, 4, 5, 6] [egA4, egB4, egB4] [egA4, egB4, egB4]).map
      (fun p => cellOf p.1 0 0) = some (some 1) := by
  with_unfolding_all decide

/-- C4 amended: only when the zero-overlap spectrum is processed by the
normalisation loop (it appears in the normalise order and is not the
baseline) does the program fail — and then not with a dedicated
`NoOverlap` error but because the polynomial fit receives an empty
point set (`np.polyfit` raises on empty input); a zero-overlap spectrum
that becomes the baseline is merged silently (see the counterexample). -/
theorem claimC4_amended (grid : List ℚ) (calMeans calStds : List Spec2D) (i : ℕ)
    (hne : i ≠ baselineIdx (overlapsMatrix calMeans))
    (hi : i ∈ normaliseOrderOf (overlapsMatrix calMeans))
    (hch : ((calMeans.getD i []).getD 0 []).length ≠ 0)
    (hzero : ∀ j, j < calMeans.length → j ≠ i →
      overlap2 (calMeans.getD i []) (calMeans.getD j []) = 0) :
    normaliseRun grid calMeans calStds = none := by
  have hnnil : calMeans ≠ [] := by
    intro h
    subst h
    rw [show normaliseOrderOf (overlapsMatrix ([] : List Spec2D)) = [] from rfl] at hi
    exact absurd hi (List.not_mem_nil i)
  have hbl := baselineIdx_lt calMeans hnnil
  have hilt : i < calMeans.length := by
    have h1 : i ∈ (argsortN ((overlapsMatrix calMeans).getD
        (baselineIdx (overlapsMatrix calMeans)) [])).dropLast := by
      unfold normaliseOrderOf at hi
      simpa using hi
    have h2 := List.dropLast_sublist (argsortN ((overlapsMatrix calMeans).getD
      (baselineIdx (overlapsMatrix calMeans)) []))
    have h3 := argsortN_mem (h2.mem h1)
    rwa [overlapsRow_length calMeans _ hbl] at h3
  unfold normaliseRun
  apply foldlM_none _
    (fun st => ∀ j w c, (cellOf (st.1.getD j []) w c).isSome →
      (cellOf (calMeans.getD j []) w c).isSome) _ i hi
  · intro s k s' hP hstep
    exact normaliseStep_valid_mono grid calMeans calStds (overlapsMatrix calMeans)
      (baselineIdx (overlapsMatrix calMeans)) k s s' hstep hP
  · intro s hP
    exact normaliseStep_none grid calMeans calStds (baselineIdx (overlapsMatrix calMeans))
      i s hP hbl hilt hne hch hzero
  · intro j w c h
    exact h

/-- Witness for the amended C4: two disjoint spectra; the smaller one is
processed first and its fit gets an empty point set, so the run fails. -/
theorem claimC4_amended_witness :
    (1 ≠ baselineIdx (overlapsMatrix [[[some 1], [some 1], [none]], [[none], [none], [some 1]]])) ∧
    (1 ∈ normaliseOrderOf (overlapsMatrix [[[some 1], [some 1], [none]], [[none], [none], [some 1]]])) ∧
    normaliseRun [1, 2, 3] [[[some 1], [some 1], [none]], [[none], [none], [some 1]]]
      [[[some 1], [some 1], [none]], [[none], [none], [some 1]]] = none := by
  refine ⟨by with_unfolding_all decide, by with_unfolding_all decide, ?_⟩
  exact claimC4_amended [1, 2, 3] [[[some 1], [some 1], [none]], [[none], [none], [some 1]]]
    [[[some 1], [some 1], [none]], [[none], [none], [some 1]]] 1
    (by with_unfolding_all decide) (by with_unfolding_all decide) (by decide)
    (by with_unfolding_all decide)

/-! ## C2: the grid aligner -/

theorem globalGrid_sorted (wls : List (List ℚ)) :
    List.Sorted (· < ·) (globalGrid wls) := by
  have hs : List.Sorted (· ≤ ·) ((wls.flatten).insertionSort (· ≤ ·)) :=
    List.sorted_insertionSort _ _
  have hs2 : List.Sorted (· ≤ ·) (globalGrid wls) :=
    List.Pairwise.sublist (List.dedup_sublist _) hs
  exact hs2.lt_of_le (List.nodup_dedup _)

theorem globalGrid_mem (wls : List (List ℚ)) (x : ℚ) :
    x ∈ globalGrid wls ↔ ∃ l ∈ wls, x ∈ l := by
  unfold globalGrid
  rw [List.mem_dedup, List.mem_insertionSort, List.mem_flatten]

theorem searchsorted_getElem (g : List ℚ) (hg : List.Sorted (· < ·) g) (j : ℕ)
    (hj : j < g.length) : searchsorted g g[j] = j := by
  unfold searchsorted
  induction g generalizing j with
  | nil => simp at hj
  | cons a t ih =>
    rcases List.sorted_cons.mp hg with ⟨ha, ht⟩
    cases j with
    | zero =>
      simp only [List.getElem_cons_zero]
      rw [List.countP_cons]
      have h1 : List.countP (fun y => decide (y < a)) t = 0 := by
        rw [List.countP_eq_zero]
        intro y hy
        simp only [decide_eq_true_eq]
        exact not_lt.mpr (le_of_lt (ha y hy))
      rw [h1]
      simp
    | succ k =>
      simp only [List.getElem_cons_succ]
      rw [List.countP_cons]
      have hk : k < t.length := by simpa using hj
      rw [ih ht k hk]
      have hlt : decide (a < t[k]) = true := by
        simp only [decide_eq_true_eq]
        exact ha _ (List.getElem_mem hk)
      rw [hlt]
      simp

theorem searchsorted_lt_length (g : List ℚ) (x : ℚ) (hx : x ∈ g) :
    searchsorted g x < g.length := by
  unfold searchsorted
  have hle := List.countP_le_length (fun y => decide (y < x)) (l := g)
  rcases eq_or_lt_of_le hle with heq | hlt
  · exfalso
    have := List.countP_eq_length.mp heq x hx
    simp at this
  · exact hlt

theorem getElem?_searchsorted (g : List ℚ) (hg : List.Sorted (· < ·) g) (x : ℚ)
    (hx : x ∈ g) : g[searchsorted g x]? = some x := by
  obtain ⟨j, hj, hxj⟩ := List.mem_iff_getElem.mp hx
  have h1 : searchsorted g x = j := by rw [← hxj]; exact searchsorted_getElem g hg j hj
  rw [h1, List.getElem?_eq_getElem hj, hxj]

theorem searchsorted_inj (g : List ℚ) (hg : List.Sorted (· < ·) g) (x y : ℚ)
    (hx : x ∈ g) (hy : y ∈ g) (h : searchsorted g x = searchsorted g y) : x = y := by
  have h1 := getElem?_searchsorted g hg x hx
  have h2 := getElem?_searchsorted g hg y hy
  rw [h] at h1
  rw [h1] at h2
  exact Option.some_inj.mp h2

theorem foldl_set_length {α : Type} (ps : List (ℕ × α)) (acc : List (Option α)) :
    (ps.foldl (fun a p => a.set p.1 (some p.2)) acc).length = acc.length := by
  induction ps generalizing acc with
  | nil => rfl
  | cons p rest ih => rw [List.foldl_cons, ih, List.length_set]

theorem foldl_set_getElem?_not_mem {α : Type} (ps : List (ℕ × α))
    (acc : List (Option α)) (j : ℕ) (hj : j ∉ ps.map Prod.fst) :
    (ps.foldl (fun a p => a.set p.1 (some p.2)) acc)[j]? = acc[j]? := by
  induction ps generalizing acc with
  | nil => rfl
  | cons p rest ih =>
    rw [List.foldl_cons]
    have hne : p.1 ≠ j := by
      intro h
      exact hj (by rw [List.map_cons, h]; exact List.mem_cons_self _ _)
    rw [ih _ (fun h => hj (by rw [List.map_cons]; exact List.mem_cons_of_mem _ h)),
      List.getElem?_set]
    simp [hne]

theorem foldl_set_getElem?_mem {α : Type} (ps : List (ℕ × α)) (acc : List (Option α))
    (j : ℕ) (v : α) (hnd : (ps.map Prod.fst).Nodup) (hmem : (j, v) ∈ ps)
    (hlt : j < acc.length) :
    (ps.foldl (fun a p => a.set p.1 (some p.2)) acc)[j]? = some (some v) := by
  induction ps generalizing acc with
  | nil => simp at hmem
  | cons p rest ih =>
    rw [List.foldl_cons]
    simp only [List.map_cons] at hnd
    rcases List.mem_cons.mp hmem with heq | hmem2
    · subst heq
      have hjnot : j ∉ rest.map Prod.fst := (List.nodup_cons.mp hnd).1
      rw [foldl_set_getElem?_not_mem rest _ j hjnot, List.getElem?_set]
      simp [hlt]
    · exact ih _ (List.nodup_cons.mp hnd).2 hmem2 (by rw [List.length_set]; exact hlt)

theorem reproject_eq_foldl {α : Type} (grid wvl : List ℚ) (vals : List α) :
    reproject grid wvl vals =
      ((wvl.zip vals).map (fun p => (searchsorted grid p.1, p.2))).foldl
        (fun a p => a.set p.1 (some p.2)) (List.replicate grid.length none) := by
  unfold reproject
  rw [List.foldl_map]

/-- C2: the global grid is the sorted, duplicate-free union of the
input wavelength lists; each configuration's measured value lands at
the (unique) index of its wavelength in that grid, and every grid
wavelength the configuration did not measure is missing.  `α` is the
per-wavelength payload (the 4-channel row in the code). -/
theorem claimC2 {α : Type} (wls : List (List ℚ)) (wvl : List ℚ) (vals : List α)
    (hsorted : ∀ l ∈ wls, List.Sorted (· < ·) l) (hwvl : wvl ∈ wls)
    (hlen : vals.length = wvl.length) :
    List.Sorted (· < ·) (globalGrid wls) ∧
    (∀ x : ℚ, x ∈ globalGrid wls ↔ ∃ l ∈ wls, x ∈ l) ∧
    (reproject (globalGrid wls) wvl vals).length = (globalGrid wls).length ∧
    (∀ (k : ℕ) (w : ℚ) (v : α), wvl[k]? = some w → vals[k]? = some v →
      (globalGrid wls)[searchsorted (globalGrid wls) w]? = some w ∧
      (reproject (globalGrid wls) wvl vals)[searchsorted (globalGrid wls) w]? =
        some (some v)) ∧
    (∀ (j : ℕ) (x : ℚ), (globalGrid wls)[j]? = some x → x ∉ wvl →
      (reproject (globalGrid wls) wvl vals)[j]? = some (none : Option α)) := by
  have hgs := globalGrid_sorted wls
  have hsub : ∀ y ∈ wvl, y ∈ globalGrid wls :=
    fun y hy => (globalGrid_mem wls y).mpr ⟨wvl, hwvl, hy⟩
  have hwnd : wvl.Nodup := (hsorted wvl hwvl).imp (fun h => ne_of_lt h)
  have hpsfst : ((wvl.zip vals).map
      (fun p => (searchsorted (globalGrid wls) p.1, p.2))).map Prod.fst =
      wvl.map (searchsorted (globalGrid wls)) := by
    rw [List.map_map]
    rw [show (Prod.fst ∘ fun p : ℚ × α => (searchsorted (globalGrid wls) p.1, p.2)) =
      (searchsorted (globalGrid wls)) ∘ Prod.fst from rfl]
    rw [← List.map_map, List.map_fst_zip _ _ (le_of_eq hlen.symm)]
  have hnd : (((wvl.zip vals).map
      (fun p => (searchsorted (globalGrid wls) p.1, p.2))).map Prod.fst).Nodup := by
    rw [hpsfst]
    exact List.Nodup.map_on
      (fun x hx y hy hxy => searchsorted_inj _ hgs x y (hsub x hx) (hsub y hy) hxy) hwnd
  refine ⟨hgs, globalGrid_mem wls, ?_, ?_, ?_⟩
  · rw [reproject_eq_foldl, foldl_set_length, List.length_replicate]
  · intro k w v hk hv
    have hkw : k < wvl.length := by
      by_contra hcon
      rw [List.getElem?_eq_none (Nat.le_of_not_lt hcon)] at hk
      cases hk
    have hkv : k < vals.length := by
      by_contra hcon
      rw [List.getElem?_eq_none (Nat.le_of_not_lt hcon)] at hv
      cases hv
    have hwel : wvl[k] = w := by
      rw [List.getElem?_eq_getElem hkw] at hk
      exact Option.some_inj.mp hk
    have hvel : vals[k] = v := by
      rw [List.getElem?_eq_getElem hkv] at hv
      exact Option.some_inj.mp hv
    have hwmem : w ∈ wvl := by rw [← hwel]; exact List.getElem_mem hkw
    refine ⟨getElem?_searchsorted _ hgs w (hsub w hwmem), ?_⟩
    have hkz : k < (wvl.zip vals).length := by rw [List.length_zip]; omega
    have hzmem : (w, v) ∈ wvl.zip vals := by
      have : (wvl.zip vals)[k] = (w, v) := by rw [List.getElem_zip, hwel, hvel]
      rw [← this]
      exact List.getElem_mem hkz
    have hpmem : (searchsorted (globalGrid wls) w, v) ∈ (wvl.zip vals).map
        (fun p => (searchsorted (globalGrid wls) p.1, p.2)) :=
      List.mem_map_of_mem _ hzmem
    rw [reproject_eq_foldl]
    exact foldl_set_getElem?_mem _ _ _ _ hnd hpmem
      (by rw [List.length_replicate]; exact searchsorted_lt_length _ _ (hsub w hwmem))
  · intro j x hjx hxnot
    have hjlt : j < (globalGrid wls).length := by
      by_contra hcon
      rw [List.getElem?_eq_none (Nat.le_of_not_lt hcon)] at hjx
      cases hjx
    have hjnot : j ∉ ((wvl.zip vals).map
        (fun p => (searchsorted (globalGrid wls) p.1, p.2))).map Prod.fst := by
      rw [hpsfst]
      intro hmem
      obtain ⟨y, hy, hssy⟩ := List.mem_map.mp hmem
      have h1 := getElem?_searchsorted _ hgs y (hsub y hy)
      rw [hssy, hjx] at h1
      have hxy : x = y := Option.some_inj.mp h1
      exact hxnot (hxy ▸ hy)
    rw [reproject_eq_foldl, foldl_set_getElem?_not_mem _ _ _ hjnot,
      List.getElem?_replicate, if_pos hjlt]

/-- Witness for C2 on two overlapping configurations. -/
theorem claimC2_witness :
    (∀ l ∈ [[(1 : ℚ), 3], [2, 3]], List.Sorted (· < ·) l) ∧
    List.Sorted (· < ·) (globalGrid [[(1 : ℚ), 3], [2, 3]]) ∧
    (∀ (k : ℕ) (w : ℚ) (v : ℕ), [(1 : ℚ), 3][k]? = some w →
      [10, 30][k]? = some v →
      (globalGrid [[(1 : ℚ), 3], [2, 3]])[searchsorted
        (globalGrid [[(1 : ℚ), 3], [2, 3]]) w]? = some w ∧
      (reproject (globalGrid [[(1 : ℚ), 3], [2, 3]]) [(1 : ℚ), 3]
        [10, 30])[searchsorted (globalGrid [[(1 : ℚ), 3], [2, 3]]) w]? =
        some (some v)) ∧
    (∀ (j : ℕ) (x : ℚ), (globalGrid [[(1 : ℚ), 3], [2, 3]])[j]? = some x →
      x ∉ [(1 : ℚ), 3] →
      (reproject (globalGrid [[(1 : ℚ), 3], [2, 3]]) [(1 : ℚ), 3]
        [10, 30])[j]? = some (none : Option ℕ)) := by
  have h := claimC2 [[(1 : ℚ), 3], [2, 3]] [(1 : ℚ), 3] ([10, 30] : List ℕ)
    (by decide) (by decide) (by decide)
  exact ⟨by decide, h.1, h.2.2.2.1, h.2.2.2.2⟩

/-! ## C9: each stage preserves the per-cell SNR -/

theorem getD_map_ddiv (row : List Cell) (c : ℕ) (f : ℚ) :
    (row.map (fun v => ddiv v (some f))).getD c none = ddiv (row.getD c none) (some f) := by
  induction row generalizing c with
  | nil => rfl
  | cons x xs ih =>
    cases c with
    | zero => rfl
    | succ k => exact ih k

theorem cellOf_calibrate (grid : List ℚ) (cal : List (ℚ × ℚ)) (a : Spec2D)
    (wi c : ℕ) (f : ℚ) (hwi : wi < grid.length)
    (hf : calFactor cal (grid.getD wi 0) = some f) :
    cellOf (calibrateSpec grid cal a) wi c = ddiv (cellOf a wi c) (some f) := by
  unfold calibrateSpec cellOf
  rw [getD_map_range grid.length wi _ [] hwi]
  simp only [hf]
  exact getD_map_ddiv _ c f

/-- C9: the Calibrator divides mean and std by the same calibration
factor, the Normalizer divides both by the same fitted polynomial
value (`normCell` is the cell operation the loop applies), and the
final rescale divides the mean by the global maximum and the squared
error by its square — each stage leaves the per-cell SNR `mean/std`
unchanged wherever it is defined. -/
theorem claimC9 :
    (∀ (grid : List ℚ) (cal : List (ℚ × ℚ)) (mean std : Spec2D) (wi c : ℕ)
      (f m s : ℚ), wi < grid.length → calFactor cal (grid.getD wi 0) = some f →
      f ≠ 0 → cellOf mean wi c = some m → cellOf std wi c = some s → s ≠ 0 →
      ddiv (cellOf (calibrateSpec grid cal mean) wi c)
        (cellOf (calibrateSpec grid cal std) wi c) =
      ddiv (cellOf mean wi c) (cellOf std wi c)) ∧
    (∀ (m s f : ℚ), f ≠ 0 → s ≠ 0 →
      ddiv (normCell (some m) f) (normCell (some s) f) = ddiv (some m) (some s)) ∧
    (∀ (m v M : ℚ), 0 < M → 0 < v →
      rescaleMeanCell ⟨some m, false⟩ (some M) = some (m / M) ∧
      rescaleErrVarCell ⟨some v, false⟩ (some M) = some (v / (M * M)) ∧
      ((m / M : ℚ) : ℝ) / Real.sqrt ((v / (M * M) : ℚ) : ℝ) =
        (m : ℝ) / Real.sqrt ((v : ℚ) : ℝ)) := by
  refine ⟨?_, ?_, ?_⟩
  · intro grid cal mean std wi c f m s hwi hf hfne hm hs hsne
    rw [cellOf_calibrate grid cal mean wi c f hwi hf,
      cellOf_calibrate grid cal std wi c f hwi hf, hm, hs]
    have hsf : s / f ≠ 0 := div_ne_zero hsne hfne
    simp only [ddiv, if_neg hfne, if_neg hsne, if_neg hsf]
    congr 1
    field_simp
  · intro m s f hfne hsne
    have hsf : s / f ≠ 0 := div_ne_zero hsne hfne
    simp only [normCell, ddiv, if_neg hfne, if_neg hsne, if_neg hsf]
    congr 1
    field_simp
  · intro m v M hM hv
    have hMne : M ≠ 0 := ne_of_gt hM
    have hMM : M * M ≠ 0 := mul_ne_zero hMne hMne
    refine ⟨?_, ?_, ?_⟩
    · simp [rescaleMeanCell, mdivD, ddiv, hMne]
    · simp [rescaleErrVarCell, mdivD, ddiv, dmul, hMM]
    · have hMR : (0 : ℝ) < (M : ℚ) := by exact_mod_cast hM
      have hvR : (0 : ℝ) < (v : ℚ) := by exact_mod_cast hv
      have hc1 : ((v / (M * M) : ℚ) : ℝ) = (v : ℝ) / ((M : ℝ) * (M : ℝ)) := by
        push_cast
        ring
      have hc2 : ((m / M : ℚ) : ℝ) = (m : ℝ) / (M : ℝ) := by
        push_cast
        ring
      rw [hc1, hc2, Real.sqrt_div hvR.le, Real.sqrt_mul_self hMR.le]
      have hsv : Real.sqrt ((v : ℚ) : ℝ) ≠ 0 := ne_of_gt (Real.sqrt_pos.mpr hvR)
      field_simp

/-- Witness for C9 at concrete cells. -/
theorem claimC9_witness :
    (ddiv (cellOf (calibrateSpec [1] [(1, 2)] [[some 4]]) 0 0)
      (cellOf (calibrateSpec [1] [(1, 2)] [[some 2]]) 0 0) =
      ddiv (cellOf [[some 4]] 0 0) (cellOf [[some 2]] 0 0)) ∧
    (ddiv (normCell (some 4) 2) (normCell (some 2) 2) = ddiv (some 4) (some 2)) ∧
    (rescaleMeanCell ⟨some 1, false⟩ (some 2) = some ((1 : ℚ) / 2) ∧
      rescaleErrVarCell ⟨some 1, false⟩ (some 2) = some ((1 : ℚ) / (2 * 2)) ∧
      (((1 : ℚ) / 2 : ℚ) : ℝ) / Real.sqrt (((1 : ℚ) / (2 * 2) : ℚ) : ℝ) =
        ((1 : ℚ) : ℝ) / Real.sqrt (((1 : ℚ) : ℚ) : ℝ)) := by
  refine ⟨?_, ?_, ?_⟩
  · exact claimC9.1 [1] [(1, 2)] [[some 4]] [[some 2]] 0 0 2 4 2 (by decide)
      (by with_unfolding_all decide) (by decide) (by decide) (by decide) (by decide)
  · exact claimC9.2.1 4 2 2 (by decide) (by decide)
  · exact claimC9.2.2 1 1 2 (by decide) (by decide)

/-! ## C10: a single configuration -/

theorem combineMeanCell_single (x y : ℚ) (hx : x ≠ 0) (hy : y ≠ 0) :
    combineMeanCell [(some x, some y)] = ⟨some x, false⟩ := by
  have hvp : validPairs [((some x : Cell), (some y : Cell))] = [(x, y)] := by
    simp [validPairs]
  have hW : weightSum [((some x : Cell), (some y : Cell))] ≠ 0 := by
    unfold weightSum
    rw [hvp]
    simp only [List.map_cons, List.map_nil, List.sum_cons, List.sum_nil, add_zero]
    exact pow_ne_zero 2 (div_ne_zero hx hy)
  have h := combineMeanCell_eq [(some x, some y)] (by rw [hvp]; simp)
    (by rw [hvp]; rintro q hq; simp only [List.mem_singleton] at hq; subst hq; exact hy) hW
  rw [h]
  have hWval : weightSum [((some x : Cell), (some y : Cell))] = (x / y) ^ 2 := by
    unfold weightSum
    rw [hvp]
    simp
  rw [hvp, hWval]
  congr 2
  simp only [List.map_cons, List.map_nil, List.sum_cons, List.sum_nil, add_zero]
  field_simp

theorem flatErrsSqCell_single (x y : ℚ) (hx : x ≠ 0) (hy : y ≠ 0) :
    flatErrsSqCell [(some x, some y)] = ⟨some (y ^ 2), false⟩ := by
  have hvp : validPairs [((some x : Cell), (some y : Cell))] = [(x, y)] := by
    simp [validPairs]
  have hW : weightSum [((some x : Cell), (some y : Cell))] ≠ 0 := by
    unfold weightSum
    rw [hvp]
    simp only [List.map_cons, List.map_nil, List.sum_cons, List.sum_nil, add_zero]
    exact pow_ne_zero 2 (div_ne_zero hx hy)
  have h := flatErrsSqCell_eq [(some x, some y)] (by rw [hvp]; simp)
    (by rw [hvp]; rintro q hq; simp only [List.mem_singleton] at hq; subst hq; exact hy) hW
  rw [h]
  have hWval : weightSum [((some x : Cell), (some y : Cell))] = (x / y) ^ 2 := by
    unfold weightSum
    rw [hvp]
    simp
  rw [hvp, hWval]
  congr 2
  simp only [List.map_cons, List.map_nil, List.sum_cons, List.sum_nil, add_zero]
  rw [div_self (pow_ne_zero 2 (div_ne_zero hx hy)), one_mul]

theorem self_eq_map_range_getD {α : Type} (l : List α) (d : α) :
    (List.range l.length).map (fun c => l.getD c d) = l := by
  apply List.ext_getElem
  · simp
  · intro n h1 h2
    rw [List.getElem_map, List.getElem_range]
    exact getD_eq_getElem l n d h2

theorem combineMeanCell_single_entry (m s : Spec2D) (w c : ℕ)
    (hmiss : (cellOf m w c).isSome ↔ (cellOf s w c).isSome)
    (hpos : ∀ x, cellOf m w c = some x → 0 < x)
    (hspos : ∀ y, cellOf s w c = some y → 0 < y) :
    (if (combineMeanCell (entriesAt [m] [s] w c)).mask then none
      else (combineMeanCell (entriesAt [m] [s] w c)).data) = cellOf m w c := by
  have hE : entriesAt [m] [s] w c = [(cellOf m w c, cellOf s w c)] := by
    simp [entriesAt]
  rw [hE]
  cases hcell : cellOf m w c with
  | none =>
    have hscell : cellOf s w c = none := by
      cases hs : cellOf s w c with
      | none => rfl
      | some y =>
        rw [hcell, hs] at hmiss
        simp at hmiss
    rw [hscell, combineMeanCell_allMissing _ (by intro p hp; simp at hp; simp [hp])]
    rfl
  | some x =>
    obtain ⟨y, hy⟩ : ∃ y, cellOf s w c = some y := by
      have := hmiss.mp (by rw [hcell]; rfl)
      exact Option.isSome_iff_exists.mp this
    rw [hy, combineMeanCell_single x y (ne_of_gt (hpos x hcell)) (ne_of_gt (hspos y hy))]
    rfl

theorem combinedMax_single (m s : Spec2D) (nC : ℕ)
    (hrect : ∀ row ∈ m, row.length = nC)
    (hmiss : ∀ w, w < m.length → ∀ c, c < nC →
      ((cellOf m w c).isSome ↔ (cellOf s w c).isSome))
    (hpos : ∀ w, w < m.length → ∀ c, c < nC → ∀ x, cellOf m w c = some x → 0 < x)
    (hspos : ∀ w, w < m.length → ∀ c, c < nC → ∀ y, cellOf s w c = some y → 0 < y) :
    combinedMax [m] [s] m.length nC = specMax m := by
  unfold combinedMax specMax combinedMeanGrid
  congr 1
  rw [List.filterMap_flatten, List.filterMap_flatten, List.map_map]
  congr 1
  apply List.ext_getElem
  · simp
  · intro w h1 h2
    simp only [List.getElem_map, List.getElem_range, Function.comp]
    have hw : w < m.length := by simpa using h2
    have hrowmem : m.getD w [] ∈ m := by
      rw [getD_eq_getElem m w [] hw]
      exact List.getElem_mem hw
    have hrowlen : (m.getD w []).length = nC := hrect _ hrowmem
    rw [List.filterMap_map]
    have hcongr : ∀ c ∈ List.range nC,
        ((fun v => if v.mask = true then none else v.data) ∘
          (fun c => combineMeanCell (entriesAt [m] [s] w c))) c =
        (fun c => cellOf m w c) c := by
      intro c hc
      have hcn : c < nC := List.mem_range.mp hc
      exact combineMeanCell_single_entry m s w c (hmiss w hw c hcn)
        (fun x hx => hpos w hw c hcn x hx) (fun y hy => hspos w hw c hcn y hy)
    rw [List.filterMap_congr hcongr]
    have hback : (List.range nC).filterMap (fun c => cellOf m w c) =
        ((List.range nC).map (fun c => (m.getD w []).getD c none)).filterMap id := by
      rw [List.filterMap_map]
      rfl
    rw [hback, ← hrowlen, self_eq_map_range_getD]
    rw [getD_eq_getElem m w [] hw]

theorem specMax_pos (m : Spec2D) (Mx : ℚ) (hmax : specMax m = some Mx)
    (hpos : ∀ w c x, cellOf m w c = some x → 0 < x) : 0 < Mx := by
  unfold specMax at hmax
  have hmem : Mx ∈ (m.flatten).filterMap id :=
    List.max?_mem (fun a b => max_choice a b) hmax
  obtain ⟨v, hvmem, hvid⟩ := List.mem_filterMap.mp hmem
  obtain ⟨row, hrowm, hvrow⟩ := List.mem_flatten.mp hvmem
  obtain ⟨w, hw, hrw⟩ := List.mem_iff_getElem.mp hrowm
  obtain ⟨c, hc, hcv⟩ := List.mem_iff_getElem.mp hvrow
  apply hpos w c
  unfold cellOf
  rw [getD_eq_getElem m w [] hw, hrw, getD_eq_getElem row c none hc, hcv]
  exact hvid

/-- C10: with exactly one configuration the normalise order is empty,
the loop is a no-op (no fit is performed, the state stays the
calibrated pair), and the terminal combined spectrum at every valid
cell is the calibrated mean divided by the spectrum's own maximum mean
value, with the std divided by the same scalar (stated on the squared
errors and through the square root). -/
theorem claimC10 (grid : List ℚ) (m s : Spec2D) (nC : ℕ)
    (hrect : ∀ row ∈ m, row.length = nC)
    (hmiss : ∀ w, w < m.length → ∀ c, c < nC →
      ((cellOf m w c).isSome ↔ (cellOf s w c).isSome))
    (hpos : ∀ w, w < m.length → ∀ c, c < nC → ∀ x, cellOf m w c = some x → 0 < x)
    (hspos : ∀ w, w < m.length → ∀ c, c < nC → ∀ y, cellOf s w c = some y → 0 < y) :
    normaliseOrderOf (overlapsMatrix [m]) = [] ∧
    normaliseRun grid [m] [s] = some ([m], [s]) ∧
    combinedMax [m] [s] m.length nC = specMax m ∧
    (∀ Mx, specMax m = some Mx →
      ∀ w c x y, cellOf m w c = some x → cellOf s w c = some y →
      cellOf (finalResponse [m] [s] m.length nC) w c = some (x / Mx) ∧
      cellOf (finalErrVar [m] [s] m.length nC) w c = some ((y / Mx) ^ 2) ∧
      Option.map (fun q : ℚ => Real.sqrt q)
        (cellOf (finalErrVar [m] [s] m.length nC) w c) =
        some ((y : ℝ) / (Mx : ℝ))) := by
  have hM : overlapsMatrix [m] = [[overlap2 m m]] := by simp [overlapsMatrix]
  have hdiag : diagOf (overlapsMatrix [m]) = [overlap2 m m] := by
    rw [hM]
    rfl
  have hbl : baselineIdx (overlapsMatrix [m]) = 0 := by
    unfold baselineIdx argmaxN
    rw [hdiag]
    simp [List.indexOf_cons_self]
  have hsingle : argsortN [overlap2 m m] = [0] := by
    unfold argsortN
    simp [List.enum, List.enumFrom, List.insertionSort, List.orderedInsert]
  have horder : normaliseOrderOf (overlapsMatrix [m]) = [] := by
    unfold normaliseOrderOf
    rw [hbl, hM]
    simp only [List.getD_cons_zero]
    rw [hsingle]
    rfl
  have hrun : normaliseRun grid [m] [s] = some ([m], [s]) := by
    simp [normaliseRun, horder]
  refine ⟨horder, hrun, combinedMax_single m s nC hrect hmiss hpos hspos, ?_⟩
  intro Mx hmax w c x y hx hy
  obtain ⟨hw, hcrow⟩ := cellOf_isSome_bounds (show (cellOf m w c).isSome by rw [hx]; rfl)
  have hrowmem : m.getD w [] ∈ m := by
    rw [getD_eq_getElem m w [] hw]
    exact List.getElem_mem hw
  have hc : c < nC := by rw [← hrect _ hrowmem]; exact hcrow
  have hpos' : ∀ w' c' x', cellOf m w' c' = some x' → 0 < x' := by
    intro w' c' x' hx'
    obtain ⟨hw', hc'⟩ := cellOf_isSome_bounds (show (cellOf m w' c').isSome by rw [hx']; rfl)
    have hrm : m.getD w' [] ∈ m := by
      rw [getD_eq_getElem m w' [] hw']
      exact List.getElem_mem hw'
    exact hpos w' hw' c' (by rw [← hrect _ hrm]; exact hc') x' hx'
  have hMxpos := specMax_pos m Mx hmax hpos'
  have hMxne : Mx ≠ 0 := ne_of_gt hMxpos
  have hcmax : combinedMax [m] [s] m.length nC = some Mx := by
    rw [combinedMax_single m s nC hrect hmiss hpos hspos, hmax]
  have hxpos := hpos w hw c hc x hx
  have hypos := hspos w hw c hc y hy
  have hE : entriesAt [m] [s] w c = [(some x, some y)] := by simp [entriesAt, hx, hy]
  have hresp : cellOf (finalResponse [m] [s] m.length nC) w c = some (x / Mx) := by
    rw [cellOf_finalResponse [m] [s] m.length nC w c hw hc, hcmax, hE,
      combineMeanCell_single x y (ne_of_gt hxpos) (ne_of_gt hypos)]
    simp [rescaleMeanCell, mdivD, ddiv, hMxne]
  have hMM : Mx * Mx ≠ 0 := mul_ne_zero hMxne hMxne
  have hdivpow : y ^ 2 / (Mx * Mx) = (y / Mx) ^ 2 := by
    rw [div_pow, pow_two Mx]
  have herr : cellOf (finalErrVar [m] [s] m.length nC) w c = some ((y / Mx) ^ 2) := by
    rw [cellOf_finalErrVar [m] [s] m.length nC w c hw hc, hcmax, hE,
      flatErrsSqCell_single x y (ne_of_gt hxpos) (ne_of_gt hypos)]
    simp [rescaleErrVarCell, mdivD, ddiv, dmul, hMM, hdivpow]
  refine ⟨hresp, herr, ?_⟩
  rw [herr]
  show some (Real.sqrt (((y / Mx) ^ 2 : ℚ) : ℝ)) = some ((y : ℝ) / (Mx : ℝ))
  congr 1
  have hycast : (((y / Mx) ^ 2 : ℚ) : ℝ) = ((y : ℝ) / (Mx : ℝ)) ^ 2 := by
    push_cast
    ring
  have hyR : (0 : ℝ) < (y : ℝ) := by exact_mod_cast hypos
  have hMR : (0 : ℝ) < (Mx : ℝ) := by exact_mod_cast hMxpos
  rw [hycast, Real.sqrt_sq (by positivity)]

/-- Witness for C10: one spectrum with one valid and one missing row. -/
theorem claimC10_witness :
    normaliseOrderOf (overlapsMatrix [[[some 2], [none]]]) = [] ∧
    normaliseRun [1, 2] [[[some 2], [none]]] [[[some 1], [none]]] =
      some ([[[some 2], [none]]], [[[some 1], [none]]]) ∧
    specMax [[some 2], [none]] = some 2 ∧
    cellOf (finalResponse [[[some 2], [none]]] [[[some 1], [none]]]
      ([[some 2], [none]] : Spec2D).length 1) 0 0 = some ((2 : ℚ) / 2) ∧
    cellOf (finalErrVar [[[some 2], [none]]] [[[some 1], [none]]]
      ([[some 2], [none]] : Spec2D).length 1) 0 0 = some (((1 : ℚ) / 2) ^ 2) ∧
    Option.map (fun q : ℚ => Real.sqrt q)
      (cellOf (finalErrVar [[[some 2], [none]]] [[[some 1], [none]]]
        ([[some 2], [none]] : Spec2D).length 1) 0 0) =
      some (((1 : ℚ) : ℝ) / ((2 : ℚ) : ℝ)) := by
  have h := claimC10 [1, 2] [[some 2], [none]] [[some 1], [none]] 1 (by decide)
    (by
      intro w hw c hc
      simp only [List.length_cons, List.length_nil] at hw
      rcases w with - | - | w
      · rcases c with - | c
        · decide
        · omega
      · rcases c with - | c
        · decide
        · omega
      · omega)
    (by
      intro w hw c hc x hx
      simp only [List.length_cons, List.length_nil] at hw
      rcases w with - | - | w
      · rcases c with - | c
        · simp [cellOf] at hx
          rw [← hx]
          norm_num
        · omega
      · rcases c with - | c
        · simp [cellOf] at hx
        · omega
      · omega)
    (by
      intro w hw c hc y hy
      simp only [List.length_cons, List.length_nil] at hw
      rcases w with - | - | w
      · rcases c with - | c
        · simp [cellOf] at hy
          rw [← hy]
          norm_num
        · omega
      · rcases c with - | c
        · simp [cellOf] at hy
        · omega
      · omega)
  have h4 := h.2.2.2 2 (by with_unfolding_all decide) 0 0 2 1 (by decide) (by decide)
  exact ⟨h.1, h.2.1, by with_unfolding_all decide, h4.1, h4.2.1, h4.2.2⟩
